import Mathlib

/-!
Shallow embedding of the FFT-based pulmonary-abnormality-detection pipeline
(`src/analyse/pattern_detection.js`, `src/analyse/utils.js`) together with
theorems checking the natural-language specification against it.

Numeric conventions: JavaScript numbers are modelled by exact rationals
(`ℚ`); machine integers and counts by `ℕ`/`ℤ`.  The one place where the code
can produce a non-finite number (the cluster score, which divides by a
distance that can be zero, giving `Infinity` in JavaScript) is modelled by
the two-point extension `JNum` of `ℚ`.
-/

namespace SpectralFP

/-- A JavaScript number that is either finite (modelled exactly as a
rational) or `Infinity`.  Used for the cluster score accumulator of
`findclusters`, which is the only value in the embedded code that can
become infinite (via division by a zero distance). -/
inductive JNum where
  | fin (q : ℚ)
  | inf
deriving DecidableEq, Repr

/-- JavaScript addition on `JNum`: adding `Infinity` to anything yields
`Infinity` (no `NaN` can arise here because only nonnegative finite terms
and `+Infinity` are ever added). -/
def JNum.add : JNum → JNum → JNum
  | .fin a, .fin b => .fin (a + b)
  | _, _ => .inf

instance : Add JNum := ⟨JNum.add⟩

@[simp] theorem JNum.fin_add_fin (a b : ℚ) :
    (JNum.fin a) + (JNum.fin b) = JNum.fin (a + b) := rfl

@[simp] theorem JNum.add_inf (a : JNum) : a + JNum.inf = JNum.inf := by
  cases a <;> rfl

@[simp] theorem JNum.inf_add (a : JNum) : JNum.inf + a = JNum.inf := by
  cases a <;> rfl

/-- `Math.round` on an exact rational: nearest integer, ties toward `+∞`. -/
def jsRound (q : ℚ) : ℤ := ⌊q + 1/2⌋

/-- `⌊√k⌋`, computed by bounded search — the number of positive `r` with
`r² ≤ k`, which are exactly `1, …, ⌊√k⌋` — so that it reduces inside the
kernel (Mathlib's `Nat.sqrt` is a well-founded iteration and does not). -/
def isqrt (k : ℕ) : ℕ := (List.range (k + 1)).countP fun r => (r + 1) * (r + 1) ≤ k

/-- `Math.round (Math.sqrt k)` for a natural number `k`: the nearest
integer to `√k` (a tie `√k = n + 1/2` is impossible for integer `k`).
`isqrt k` is `⌊√k⌋`, and rounding goes up exactly when
`k > ⌊√k⌋² + ⌊√k⌋`, i.e. when `√k ≥ ⌊√k⌋ + 1/2`. -/
def roundSqrt (k : ℕ) : ℕ :=
  let n := isqrt k
  if n * n + n < k then n + 1 else n

/-! ## Grids

A grid (`number[][]` in the source) is a list of rows of natural numbers.
`cellZ` is the read `grid[i][j]` (any out-of-list access — including a
negative index — reads JavaScript `undefined`, which compares unequal to
`1`; it is modelled as the value `0`, which the code treats identically:
the only thing the code ever does with a cell is compare it with `1`).
`setCell` is the write `grid[i][j] = v`. -/

abbrev Grid := List (List ℕ)

/-- Read `grid[i][j]` with JavaScript out-of-bounds semantics folded to `0`. -/
def cellZ (g : Grid) (i j : ℤ) : ℕ :=
  if 0 ≤ i ∧ 0 ≤ j then (g.getD i.toNat []).getD j.toNat 0 else 0

/-- Write `grid[i][j] = v` (no-op when the index is outside the list). -/
def setCell (g : Grid) (i j : ℕ) (v : ℕ) : Grid :=
  g.set i ((g.getD i []).set j v)

/-- Number of `1`-entries stored in the grid.  Not part of the source
(which recurses on the mutated grid); it is the fuel bound that makes the
depth-first search below structurally recursive. -/
def onesCount (g : Grid) : ℕ := (g.map fun r => r.countP (· = 1)).sum

/-- The recursive flood fill `dfs(i, j)` of `findclusters`
(`src/analyse/pattern_detection.js` lines 53–66): if the cell is out of
bounds or not `1` it contributes `0`; otherwise the cell is cleared to `0`
and the four axis neighbours are explored in the source order
down, up, right, left.  The extra `fuel` argument only bounds the recursion
depth; `fuel > onesCount g` is always enough (each recursive step clears a
`1`-cell first), and all uses below supply such a fuel. -/
def dfs (rows cols : ℕ) : ℕ → Grid → ℤ → ℤ → Grid × ℕ
  | 0, g, _, _ => (g, 0)
  | fuel + 1, g, i, j =>
    if i < 0 ∨ (rows : ℤ) ≤ i ∨ j < 0 ∨ (cols : ℤ) ≤ j ∨ cellZ g i j ≠ 1 then (g, 0)
    else
      let g0 := setCell g i.toNat j.toNat 0
      let p1 := dfs rows cols fuel g0 (i + 1) j
      let p2 := dfs rows cols fuel p1.1 (i - 1) j
      let p3 := dfs rows cols fuel p2.1 i (j + 1)
      let p4 := dfs rows cols fuel p3.1 i (j - 1)
      (p4.1, 1 + p1.2 + p2.2 + p3.2 + p4.2)

/-- `computedist(x, y)` of `findclusters`:
`Math.round(Math.sqrt((x-m)^2 + (y-n)^2))` where `(m, n)` is the rounded
grid centre. -/
def computedist (m n : ℕ) (x y : ℤ) : ℕ :=
  roundSqrt ((x - m) ^ 2 + (y - n) ^ 2).toNat

/-- One score contribution of `findclusters`:
`Math.round((islandSize * 0.4) / (dist * 0.6)) * 100`.  When `dist = 0`
the JavaScript division of the positive numerator by `0` yields
`Infinity`, which `Math.round` and the multiplication preserve. -/
def scoreTerm (s d : ℕ) : JNum :=
  if d = 0 then JNum.inf
  else JNum.fin ((jsRound ((s * 0.4) / (d * 0.6)) * 100 : ℤ) : ℚ)

/-- Result record of `findclusters`.  `score = none` models the early
return `{count: 0, sizes: [], totalSize: 0}` on an empty grid, whose
object has no `score` field (reading it yields `undefined`). -/
structure ClusterResult where
  count : ℕ
  sizes : List ℕ
  totalSize : ℕ
  score : Option JNum
deriving DecidableEq, Repr

/-- Accumulator of the scan loop of `findclusters`. -/
structure ClusterAcc where
  count : ℕ
  sizes : List ℕ
  totalSize : ℕ
  score : JNum
deriving DecidableEq, Repr

/-- The row-major cell order `(0,0), (0,1), …` of the nested scan loops. -/
def scanCells (rows cols : ℕ) : List (ℕ × ℕ) :=
  (List.range rows).flatMap fun i => (List.range cols).map fun j => (i, j)

/-- Loop body of the scan of `findclusters` (lines 68–80): on a `1`-cell,
flood-fill the component; when its size reaches `minSize`, accumulate
score, size list, total size and count. -/
def scanStep (rows cols minSize : ℕ) (m n fuel : ℕ)
    (st : Grid × ClusterAcc) (c : ℕ × ℕ) : Grid × ClusterAcc :=
  let g := st.1
  let acc := st.2
  let i := c.1
  let j := c.2
  if cellZ g i j = 1 then
    let p := dfs rows cols fuel g i j
    let islandSize := p.2
    if minSize ≤ islandSize then
      (p.1,
        { count := acc.count + 1,
          sizes := acc.sizes ++ [islandSize],
          totalSize := acc.totalSize + islandSize,
          score := acc.score + scoreTerm islandSize (computedist m n j i) })
    else (p.1, acc)
  else (g, acc)

/-- `findclusters(grid, minSize)` (`src/analyse/pattern_detection.js`
lines 39–83).  The centre is `(m, n) = (round(cols/2), round(rows/2))`;
`round(k/2) = (k+1)/2` in natural division.  The fuel handed to the
flood fill is `onesCount grid + 1`, which is more than enough for every
call (the number of `1`-cells only ever decreases). -/
def findclusters (grid : Grid) (minSize : ℕ) : ClusterResult :=
  if grid.length = 0 then { count := 0, sizes := [], totalSize := 0, score := none }
  else
    let rows := grid.length
    let cols := (grid.getD 0 []).length
    let n := (rows + 1) / 2
    let m := (cols + 1) / 2
    let fuel := onesCount grid + 1
    let r := (scanCells rows cols).foldl
      (scanStep rows cols minSize m n fuel)
      (grid, { count := 0, sizes := [], totalSize := 0, score := JNum.fin 0 })
    { count := r.2.count, sizes := r.2.sizes, totalSize := r.2.totalSize,
      score := some r.2.score }

/-! ## ModelScorer: the per-coordinate scoring loop of `detect`

`detect` (`src/analyse/pattern_detection.js` lines 136–150) walks the
token memo; for each coordinate it sums the two class counters of every
token over the trained model `data` (a token absent from the model
contributes `0` to both sums, via the `data[el] ? … : 0` guard) and then
labels the coordinate `0` when `score["1"] == 0` or
`0.9 < score["0"] / score["1"]`, and `1` otherwise.  The trained model is
a partial map from tokens to the counter pair
`(classNormalCount, classAnomalyCount)` — the fields `"0"` and `"1"`. -/

/-- The body of `keys.forEach` in `detect`: score one coordinate's token
list against the model and return its activation label. -/
def scoreCoord {α : Type} (data : α → Option (ℕ × ℕ)) (hashes : List α) : ℕ :=
  let score := hashes.foldl
    (fun s el => (s.1 + ((data el).map Prod.fst).getD 0,
                  s.2 + ((data el).map Prod.snd).getD 0))
    (0, 0)
  if score.2 = 0 ∨ (0.9 : ℚ) < (score.1 : ℚ) / (score.2 : ℚ) then 0 else 1

/-- The flattened activation matrix that `detect` builds from the memo. -/
def scoreMatrix {α β : Type} (data : α → Option (ℕ × ℕ))
    (memo : List (β × List α)) : List ℕ :=
  memo.map fun kv => scoreCoord data kv.2

/-- Sum of `classNormalCount` (field `"0"`) over a coordinate's tokens;
tokens absent from the model contribute `0`. -/
def classNormalSum {α : Type} (data : α → Option (ℕ × ℕ)) (hashes : List α) : ℕ :=
  (hashes.map fun el => ((data el).map Prod.fst).getD 0).sum

/-- Sum of `classAnomalyCount` (field `"1"`) over a coordinate's tokens;
tokens absent from the model contribute `0`. -/
def classAnomalySum {α : Type} (data : α → Option (ℕ × ℕ)) (hashes : List α) : ℕ :=
  (hashes.map fun el => ((data el).map Prod.snd).getD 0).sum

theorem scoreCoord_foldl_eq {α : Type} (data : α → Option (ℕ × ℕ))
    (hashes : List α) (init : ℕ × ℕ) :
    hashes.foldl
      (fun s el => (s.1 + ((data el).map Prod.fst).getD 0,
                    s.2 + ((data el).map Prod.snd).getD 0)) init
      = (init.1 + classNormalSum data hashes, init.2 + classAnomalySum data hashes) := by
  induction hashes generalizing init with
  | nil => simp [classNormalSum, classAnomalySum]
  | cons h t ih =>
      simp only [List.foldl_cons, ih, classNormalSum, classAnomalySum, List.map_cons,
        List.sum_cons]
      simp only [Prod.mk.injEq]
      omega

/-- C1: the ModelScorer loop of `detect` labels a coordinate `1`
(suspicious) if and only if the summed `classAnomalyCount` over the
coordinate's tokens is non-zero and the ratio
`classNormalCount / classAnomalyCount` does not exceed `0.9`; moreover a
coordinate all of whose tokens are absent from the model is labeled `0`. -/
theorem scoreCoord_one_iff {α : Type} (data : α → Option (ℕ × ℕ)) (hashes : List α) :
    (scoreCoord data hashes = 1 ↔
      classAnomalySum data hashes ≠ 0 ∧
        (classNormalSum data hashes : ℚ) / (classAnomalySum data hashes : ℚ) ≤ 0.9) ∧
    ((∀ t ∈ hashes, data t = none) → scoreCoord data hashes = 0) := by
  have hfold := scoreCoord_foldl_eq data hashes (0, 0)
  constructor
  · unfold scoreCoord
    rw [hfold]
    simp only [Nat.zero_add, zero_add]
    by_cases hcond : classAnomalySum data hashes = 0 ∨
        (0.9 : ℚ) < (classNormalSum data hashes : ℚ) / (classAnomalySum data hashes : ℚ)
    · rw [if_pos hcond]
      constructor
      · intro h; exact absurd h (by decide)
      · rintro ⟨hne, hle⟩
        rcases hcond with h | h
        · exact absurd h hne
        · exact absurd h (not_lt.mpr hle)
    · rw [if_neg hcond]
      push_neg at hcond
      simp only [true_iff]
      exact hcond
  · intro habs
    unfold scoreCoord
    rw [hfold]
    have h1 : classAnomalySum data hashes = 0 := by
      unfold classAnomalySum
      rw [List.sum_eq_zero]
      intro x hx
      rcases List.mem_map.mp hx with ⟨t, ht, rfl⟩
      rw [habs t ht]
      rfl
    rw [if_pos (by left; simpa using h1)]

/-- Witness for `scoreCoord_one_iff` at a concrete model and token list. -/
theorem scoreCoord_one_iff_witness :
    scoreCoord (fun _ : ℕ => (none : Option (ℕ × ℕ))) [5] = 0 :=
  (scoreCoord_one_iff (fun _ : ℕ => (none : Option (ℕ × ℕ))) [5]).2 (by simp)

/-! ## `getgrid`: reshaping the flattened activation matrix

`getgrid` (`src/analyse/pattern_detection.js` lines 97–106) computes
`n = Math.floor(Math.sqrt(mat.length))` and chops the list into
consecutive slices of length `n` (`for i = 0; i < len; i += n`), with no
validation whatsoever that the length is a perfect square: a non-square
length simply produces a ragged final row. -/

/-- The slicing loop of `getgrid`; the first argument is the slice width
`n`, the fuel is bounded by the list length (each step drops `n ≥ 1`
elements). -/
def chunksAux (n : ℕ) : ℕ → List ℕ → List (List ℕ)
  | 0, _ => []
  | _, [] => []
  | fuel + 1, l => l.take n :: chunksAux n fuel (l.drop n)

/-- `getgrid(mat)`.  The guard `n = 0` is only reached for the empty
list (where the JavaScript loop body never runs); for a non-empty list
the integer square root of the length is positive. -/
def getgrid (mat : List ℕ) : List (List ℕ) :=
  let n := isqrt mat.length
  if n = 0 then [] else chunksAux n mat.length mat

/-- C4: evaluation of `getgrid` at the failing input.  A coordinate count
of `5` is not a perfect square, yet `getgrid` raises no error at all: it
silently returns the ragged (non-square) matrix `[[10,11],[12,13],[14]]`,
which the caller `detect` then feeds to `findclusters` unchecked.  (On a
perfect-square count it does return the square reshape, as the second
conjunct shows for `4 = 2²`.) -/
theorem getgrid_no_shape_error :
    getgrid [10, 11, 12, 13, 14] = [[10, 11], [12, 13], [14]] ∧
    getgrid [10, 11, 12, 13] = [[10, 11], [12, 13]] := by
  constructor <;> decide

/-- C2: evaluation of `findclusters` at a grid whose single qualifying
component is discovered exactly at the rounded grid centre (distance 0).
The claimed floor-to-1 guard does not exist in the code: the score term
divides `islandSize * 0.4` by `0 * 0.6 = 0`, which in JavaScript yields
`Infinity`, so the returned score is infinite, not finite. -/
theorem findclusters_center_infinite_score :
    findclusters [[0, 0], [0, 1]] 1 =
      { count := 1, sizes := [1], totalSize := 1, score := some JNum.inf } := by
  rfl

/-- C9: evaluation of `findclusters` at the empty grid.  The early return
on line 40 of `src/analyse/pattern_detection.js` is
`{count: 0, sizes: [], totalSize: 0}` — it omits the `score` field
(modelled as `none`), contradicting both the claim and the function's own
`@returns` documentation, which promise all four fields with `score: 0`. -/
theorem findclusters_empty_grid_missing_score :
    findclusters [] 7 =
      { count := 0, sizes := [], totalSize := 0, score := none } := by
  rfl

/-- Each scan step of `findclusters` either leaves the accumulator alone
or appends exactly one island: one more count, one more entry in `sizes`,
and that entry added to `totalSize`. -/
theorem scanStep_snd (rows cols ms m n fuel : ℕ) (st : Grid × ClusterAcc)
    (c : ℕ × ℕ) :
    (scanStep rows cols ms m n fuel st c).2 = st.2 ∨
    ∃ s d, (scanStep rows cols ms m n fuel st c).2 =
      { count := st.2.count + 1, sizes := st.2.sizes ++ [s],
        totalSize := st.2.totalSize + s, score := st.2.score + scoreTerm s d } := by
  by_cases h1 : cellZ st.1 (c.1 : ℤ) (c.2 : ℤ) = 1
  · by_cases h2 : ms ≤ (dfs rows cols fuel st.1 (c.1 : ℤ) (c.2 : ℤ)).2
    · right
      exact ⟨(dfs rows cols fuel st.1 (c.1 : ℤ) (c.2 : ℤ)).2,
        computedist m n (c.2 : ℤ) (c.1 : ℤ), by simp [scanStep, h1, h2]⟩
    · left; simp [scanStep, h1, h2]
  · left; simp [scanStep, h1]

theorem scan_acc_invariant (rows cols ms m n fuel : ℕ) (cs : List (ℕ × ℕ)) :
    ∀ st : Grid × ClusterAcc,
      st.2.count = st.2.sizes.length → st.2.totalSize = st.2.sizes.sum →
      (cs.foldl (scanStep rows cols ms m n fuel) st).2.count =
          (cs.foldl (scanStep rows cols ms m n fuel) st).2.sizes.length ∧
        (cs.foldl (scanStep rows cols ms m n fuel) st).2.totalSize =
          (cs.foldl (scanStep rows cols ms m n fuel) st).2.sizes.sum := by
  induction cs with
  | nil => intro st h1 h2; exact ⟨h1, h2⟩
  | cons c cs ih =>
      intro st h1 h2
      rw [List.foldl_cons]
      apply ih
      · rcases scanStep_snd rows cols ms m n fuel st c with h | ⟨s, d, h⟩
        · rw [h]; exact h1
        · rw [h]; simp [h1]
      · rcases scanStep_snd rows cols ms m n fuel st c with h | ⟨s, d, h⟩
        · rw [h]; exact h2
        · rw [h]; simp [h2]

/-- C10: for every non-empty grid and threshold, the result of
`findclusters` is internally consistent: `count` equals the length of
`sizes`, and `totalSize` equals the sum of `sizes` (each qualifying
island increments all three together). -/
theorem findclusters_count_sizes_total (g : Grid) (ms : ℕ) (hg : g ≠ []) :
    (findclusters g ms).count = (findclusters g ms).sizes.length ∧
    (findclusters g ms).totalSize = (findclusters g ms).sizes.sum := by
  unfold findclusters
  rw [if_neg (by simpa using hg)]
  exact scan_acc_invariant _ _ _ _ _ _ _ _ rfl rfl

/-- Witness for `findclusters_count_sizes_total` on a concrete grid. -/
theorem findclusters_count_sizes_total_witness :
    (findclusters [[1]] 1).count = (findclusters [[1]] 1).sizes.length ∧
    (findclusters [[1]] 1).totalSize = (findclusters [[1]] 1).sizes.sum :=
  findclusters_count_sizes_total [[1]] 1 (by decide)

/-! ## The mid-frequency band selector of `I_mat`

`I_mat` (`src/analyse/pattern_detection.js` lines 381–383) builds the
mid-band mask by mapping
`dist => dist < blockSize / 4 && dist > blockSize / 2.5`
over the matrix of distances from the block centre. -/

/-- The mid-band selector lambda of `I_mat`. -/
def midfreqSel {α : Type} [LinearOrderedField α] (blockSize dist : α) : Prop :=
  dist < blockSize / 4 ∧ dist > blockSize / 2.5

/-- The `midfreq` mask matrix of `I_mat`: the selector mapped over the
distance-from-centre matrix. -/
def midfreqMask {α : Type} [LinearOrderedField α] (blockSize : α)
    (distFromCenter : List (List α)) : List (List Prop) :=
  distFromCenter.map fun row => row.map fun dist => midfreqSel blockSize dist

/-- C7: for every positive block side and every cell distance, the
mid-band selector is false — `dist` would have to be simultaneously below
`blockSize/4` and above the larger bound `blockSize/2.5` — so every entry
of the `midfreq` mask is false and the mask never selects a cell.  (The
third feature-vector element pushed when the band-count parameter exceeds
2 is therefore `Math.round(midfreq/binsize)*binsize` applied to a boolean
mask *array*, which JavaScript coerces to `NaN`: a degenerate value, not a
mid-band energy sum.) -/
theorem midfreqMask_all_false {α : Type} [LinearOrderedField α] (blockSize : α)
    (distFromCenter : List (List α)) (hb : 0 < blockSize) :
    ∀ row ∈ midfreqMask blockSize distFromCenter, ∀ p ∈ row, ¬p := by
  intro row hrow p hp
  rcases List.mem_map.mp hrow with ⟨row₀, _, rfl⟩
  rcases List.mem_map.mp hp with ⟨d, _, rfl⟩
  rintro ⟨h1, h2⟩
  have hlt : blockSize / 2.5 < blockSize / 4 := lt_trans h2 h1
  rw [div_lt_div_iff₀ (by norm_num) (by norm_num)] at hlt
  nlinarith

/-- Witness for `midfreqMask_all_false` at block side 8 and distance 3. -/
theorem midfreqMask_all_false_witness : ¬ midfreqSel (8 : ℚ) 3 :=
  midfreqMask_all_false (8 : ℚ) [[3]] (by norm_num)
    [midfreqSel (8 : ℚ) 3] (by simp [midfreqMask]) (midfreqSel (8 : ℚ) 3) (by simp)

/-! ## `extractBlocks`: the BlockPartitioner

`extractBlocks` (`src/analyse/utils.js` lines 147–172) trims the matrix
to multiples of the block side (`trimmedH = h - h % size`,
`trimmedW = w - w % size`), then scans the trimmed area in row-major
block order, slicing each `size × size` tile out of the trimmed matrix.
The loops `for (i = 0; i < trimmedH; i += size)` visit exactly the
values `bi * size` for `bi < trimmedH / size` (the trimmed extents are
multiples of `size`), rendered here as `List.range'` with step `size`. -/

def extractBlocks (mat : List (List ℕ)) (size : ℕ) : List (List (List ℕ)) :=
  let h := mat.length
  let w := (mat.getD 0 []).length
  let trimmedH := h - h % size
  let trimmedW := w - w % size
  let trimmedMat := (mat.take trimmedH).map fun row => row.take trimmedW
  (List.range' 0 (trimmedH / size) size).flatMap fun i =>
    (List.range' 0 (trimmedW / size) size).map fun j =>
      (List.range size).map fun k =>
        ((trimmedMat.getD (i + k) []).drop j).take size

theorem flatMap_map_length {α β γ : Type} (A : List α) (B : List β) (f : α → β → γ) :
    (A.flatMap fun a => B.map fun b => f a b).length = A.length * B.length := by
  induction A with
  | nil => simp
  | cons a A ih => simp [ih, Nat.succ_mul, Nat.add_comm]

theorem flatMap_map_getElem {α β γ : Type} (A : List α) (B : List β) (f : α → β → γ)
    (i j : ℕ) (hi : i < A.length) (hj : j < B.length) :
    (A.flatMap fun a => B.map fun b => f a b)[i * B.length + j]? =
      some (f A[i] B[j]) := by
  induction A generalizing i with
  | nil => simp at hi
  | cons a A ih =>
      cases i with
      | zero =>
          rw [List.flatMap_cons, Nat.zero_mul, Nat.zero_add,
            List.getElem?_append_left (by simpa using hj), List.getElem?_map,
            List.getElem?_eq_getElem hj]
          rfl
      | succ i =>
          rw [List.flatMap_cons,
            List.getElem?_append_right (by simp [Nat.succ_mul]; omega)]
          simp only [List.length_map]
          rw [show (i + 1) * B.length + j - B.length = i * B.length + j by
            rw [Nat.succ_mul]; omega]
          simpa using ih i (by simpa using hi)

/-- C5: for a non-empty rectangular matrix of height `h`, width `w` and a
positive block side `size`, `extractBlocks` returns exactly
`((h - h % size) / size) * ((w - w % size) / size)` blocks, in row-major
block order; the block at block-coordinates `(bi, bj)` is the `size × size`
sub-matrix whose entry `(k, l)` is the matrix sample at row
`bi*size + k` and column `bj*size + l`, and every such sample lies inside
the trimmed bounds (`row < h - h % size`, `column < w - w % size`). -/
theorem extractBlocks_spec (mat : List (List ℕ)) (size h w : ℕ)
    (hh : mat.length = h) (hw : ∀ row ∈ mat, row.length = w)
    (hpos : 0 < h) (hs : 0 < size) :
    (extractBlocks mat size).length = ((h - h % size) / size) * ((w - w % size) / size) ∧
    ∀ bi bj, bi < (h - h % size) / size → bj < (w - w % size) / size →
      ∃ blk, (extractBlocks mat size)[bi * ((w - w % size) / size) + bj]? = some blk ∧
        blk.length = size ∧
        ∀ k, k < size → ∃ row, blk[k]? = some row ∧ row.length = size ∧
          ∀ l, l < size →
            row[l]? = (mat.getD (bi * size + k) [])[bj * size + l]? ∧
            bi * size + k < h - h % size ∧ bj * size + l < w - w % size := by
  -- abbreviations matching the source
  set tH := h - h % size with htH
  set tW := w - w % size with htW
  have hwdef : (mat.getD 0 []).length = w := by
    have h0 : 0 < mat.length := by omega
    rw [List.getD_eq_getElem?_getD, List.getElem?_eq_getElem h0]
    exact hw _ (List.getElem_mem h0)
  have htHmul : size * (tH / size) = tH := by
    have := Nat.div_add_mod h size
    have : tH = size * (h / size) := by omega
    rw [this, Nat.mul_div_cancel_left _ hs]
  have htWmul : size * (tW / size) = tW := by
    have := Nat.div_add_mod w size
    have : tW = size * (w / size) := by omega
    rw [this, Nat.mul_div_cancel_left _ hs]
  have htHle : tH ≤ h := by omega
  have htWle : tW ≤ w := by omega
  have hrowlt : ∀ bi k, bi < tH / size → k < size → bi * size + k < tH := by
    intro bi k hbi hk
    calc bi * size + k < (bi + 1) * size := by rw [Nat.succ_mul]; omega
    _ ≤ (tH / size) * size := Nat.mul_le_mul_right _ hbi
    _ = tH := by rw [Nat.mul_comm]; exact htHmul
  have hcollt : ∀ bj l, bj < tW / size → l < size → bj * size + l < tW := by
    intro bj l hbj hl
    calc bj * size + l < (bj + 1) * size := by rw [Nat.succ_mul]; omega
    _ ≤ (tW / size) * size := Nat.mul_le_mul_right _ hbj
    _ = tW := by rw [Nat.mul_comm]; exact htWmul
  have hunfold : extractBlocks mat size =
      (List.range' 0 (tH / size) size).flatMap fun i =>
        (List.range' 0 (tW / size) size).map fun j =>
          (List.range size).map fun k =>
            (((((mat.take tH).map fun row => row.take tW)).getD (i + k) []).drop j).take size := by
    simp only [extractBlocks]
    rw [hh, hwdef]
  constructor
  · rw [hunfold, flatMap_map_length, List.length_range', List.length_range']
  · intro bi bj hbi hbj
    have hget := flatMap_map_getElem
      (List.range' 0 (tH / size) size) (List.range' 0 (tW / size) size)
      (fun i j => (List.range size).map fun k =>
        (((((mat.take tH).map fun row => row.take tW)).getD (i + k) []).drop j).take size)
      bi bj (by simpa [List.length_range'] using hbi) (by simpa [List.length_range'] using hbj)
    simp only [List.length_range', List.getElem_range', Nat.zero_add, zero_add] at hget
    simp only [Nat.mul_comm size bi, Nat.mul_comm size bj] at hget
    refine ⟨_, by rw [hunfold]; exact hget, by simp, ?_⟩
    intro k hk
    have hik : bi * size + k < tH := hrowlt bi k hbi hk
    have hlt : bi * size + k < mat.length := by omega
    have hrowget :
        (((mat.take tH).map fun row => row.take tW)).getD (bi * size + k) [] =
          (mat.getD (bi * size + k) []).take tW := by
      rw [List.getD_eq_getElem?_getD, List.getElem?_map, List.getElem?_take,
        if_pos hik, List.getElem?_eq_getElem hlt, List.getD_eq_getElem?_getD,
        List.getElem?_eq_getElem hlt]
      rfl
    have hrowlen : (mat.getD (bi * size + k) []).length = w := by
      rw [List.getD_eq_getElem?_getD, List.getElem?_eq_getElem hlt]
      exact hw _ (List.getElem_mem hlt)
    have hjs : bj * size + size ≤ tW := by
      have := hcollt bj (size - 1) hbj (by omega)
      omega
    refine ⟨List.take size (List.drop (bj * size)
        (((mat.take tH).map fun row => row.take tW).getD (bi * size + k) [])), ?_, ?_, ?_⟩
    · rw [List.getElem?_map, List.getElem?_range hk]
      rfl
    · rw [hrowget, List.length_take, List.length_drop, List.length_take, hrowlen]
      rw [Nat.min_eq_left htWle]
      omega
    · intro l hl
      refine ⟨?_, hik, hcollt bj l hbj hl⟩
      rw [hrowget, List.getElem?_take, if_pos hl, List.getElem?_drop, List.getElem?_take,
        if_pos (by have := hcollt bj l hbj hl; omega)]

/-- Witness for `extractBlocks_spec` at a concrete `3 × 5` matrix and
block side `2`, where the trimmed area is `2 × 4` and yields two blocks. -/
theorem extractBlocks_spec_witness :
    (extractBlocks [[1, 2, 3, 4, 5], [6, 7, 8, 9, 10], [11, 12, 13, 14, 15]] 2).length =
      ((3 - 3 % 2) / 2) * ((5 - 5 % 2) / 2) :=
  (extractBlocks_spec [[1, 2, 3, 4, 5], [6, 7, 8, 9, 10], [11, 12, 13, 14, 15]] 2 3 5
    rfl (by decide) (by decide) (by decide)).1

/-! ## `hash`: the HashGenerator

`hash` (`src/analyse/utils.js` lines 197–268) walks the feature grid in
row-major order; at each coordinate it computes the quadrant code `rel`
from `r = blocks.length / 2` (JavaScript real division), then visits the
eight neighbour offsets in the fixed `directions` order, and for every
neighbour inside the grid bounds pushes one token onto both the flat
`hashes` list and `memo["(i,j)"]`.  A token is the underscore-joined
string of the first two feature components of the cell and of the
neighbour, the direction code, and (in extended mode) the quadrant code;
it is modelled as a constructor holding exactly those fields.  Feature
vectors enter tokens only through their first two components, modelled as
a pair. -/

/-- A hash token: the fields of the template string
`own0_own1_nb0_nb1_dir` (basic) or `own0_own1_nb0_nb1_rel_dir`
(extended). -/
inductive HashTok where
  | basic (own0 own1 nb0 nb1 : ℚ) (dir : ℕ)
  | extended (own0 own1 nb0 nb1 : ℚ) (rel : ℤ) (dir : ℕ)
deriving DecidableEq, Repr

/-- The eight neighbour offsets of `hash` with their direction codes, in
source order: the three `above` offsets map to `0`, `left` to `2`,
`right` to `4`, the three `below` offsets to `1`. -/
def directions : List (ℤ × ℤ × ℕ) :=
  [(-1, -1, 0), (-1, 0, 0), (-1, 1, 0),
   (0, -1, 2), (0, 1, 4),
   (1, -1, 1), (1, 0, 1), (1, 1, 1)]

/-- The quadrant code `rel` of `hash`: sign tests of `i - r` and `j - r`. -/
def relCode (r : ℚ) (i j : ℕ) : ℤ :=
  if 0 ≤ (i : ℚ) - r then (if 0 ≤ (j : ℚ) - r then -1 else 0)
  else (if 0 ≤ (j : ℚ) - r then 1 else 2)

/-- The neighbour-existence test `ni >= 0 && ni < rows && nj >= 0 && nj < cols`. -/
def inBnd (rows cols : ℕ) (i j : ℤ) : Prop :=
  0 ≤ i ∧ i < (rows : ℤ) ∧ 0 ≤ j ∧ j < (cols : ℤ)

instance (rows cols : ℕ) (i j : ℤ) : Decidable (inBnd rows cols i j) := by
  unfold inBnd; infer_instance

/-- The tokens `hash` pushes onto `memo["(i,j)"]` while visiting
coordinate `(i, j)`: one per in-bounds neighbour offset, in `directions`
order. -/
def hashCellTokens (blocks : List (List (ℚ × ℚ))) (ext : Bool)
    (rows cols : ℕ) (r : ℚ) (i j : ℕ) : List HashTok :=
  let block := (blocks.getD i []).getD j (0, 0)
  let rel := relCode r i j
  directions.filterMap fun d =>
    if inBnd rows cols ((i : ℤ) + d.1) ((j : ℤ) + d.2.1) then
      some
        (let neighbor := (blocks.getD ((i : ℤ) + d.1).toNat []).getD
          ((j : ℤ) + d.2.1).toNat (0, 0)
         if ext then HashTok.extended block.1 block.2 neighbor.1 neighbor.2 rel d.2.2
         else HashTok.basic block.1 block.2 neighbor.1 neighbor.2 d.2.2)
    else none

/-- `hash(blocks, ext)`: the memo (an insertion-ordered association list
from coordinate strings to token lists) together with the flat `hashes`
list, which receives the same tokens in the same scan order. -/
def hash (blocks : List (List (ℚ × ℚ))) (ext : Bool) :
    List (String × List HashTok) × List HashTok :=
  let rows := blocks.length
  let cols := (blocks.getD 0 []).length
  let r : ℚ := (rows : ℚ) / 2
  let memo := (List.range rows).flatMap fun i =>
    (List.range cols).map fun j =>
      (s!"({i},{j})", hashCellTokens blocks ext rows cols r i j)
  (memo, memo.flatMap Prod.snd)

theorem length_filterMap_ite {α β : Type} (l : List α) (C : α → Prop)
    [DecidablePred C] (g : α → β) :
    (l.filterMap fun d => if C d then some (g d) else none).length =
      l.countP fun d => decide (C d) := by
  induction l with
  | nil => rfl
  | cons a l ih =>
      by_cases h : C a <;> simp [List.filterMap_cons, h, ih, List.countP_cons]

theorem hashCellTokens_length (blocks : List (List (ℚ × ℚ))) (ext : Bool)
    (rows cols : ℕ) (r : ℚ) (i j : ℕ) :
    (hashCellTokens blocks ext rows cols r i j).length =
      directions.countP fun d =>
        decide (inBnd rows cols ((i : ℤ) + d.1) ((j : ℤ) + d.2.1)) := by
  unfold hashCellTokens
  exact length_filterMap_ite directions
    (fun d => inBnd rows cols ((i : ℤ) + d.1) ((j : ℤ) + d.2.1)) _

theorem count_dirs (n i j : ℕ) (hn : 3 ≤ n) (hi : i < n) (hj : j < n) :
    (directions.countP fun d =>
        decide (inBnd n n ((i : ℤ) + d.1) ((j : ℤ) + d.2.1))) =
      if (i = 0 ∨ i = n - 1) ∧ (j = 0 ∨ j = n - 1) then 3
      else if i = 0 ∨ i = n - 1 ∨ j = 0 ∨ j = n - 1 then 5 else 8 := by
  have a1 : inBnd n n ((i : ℤ) + -1) ((j : ℤ) + -1) ↔ (1 ≤ i ∧ 1 ≤ j) := by
    unfold inBnd; omega
  have a2 : inBnd n n ((i : ℤ) + -1) ((j : ℤ) + 0) ↔ (1 ≤ i) := by
    unfold inBnd; omega
  have a3 : inBnd n n ((i : ℤ) + -1) ((j : ℤ) + 1) ↔ (1 ≤ i ∧ j + 1 < n) := by
    unfold inBnd; omega
  have a4 : inBnd n n ((i : ℤ) + 0) ((j : ℤ) + -1) ↔ (1 ≤ j) := by
    unfold inBnd; omega
  have a5 : inBnd n n ((i : ℤ) + 0) ((j : ℤ) + 1) ↔ (j + 1 < n) := by
    unfold inBnd; omega
  have a6 : inBnd n n ((i : ℤ) + 1) ((j : ℤ) + -1) ↔ (i + 1 < n ∧ 1 ≤ j) := by
    unfold inBnd; omega
  have a7 : inBnd n n ((i : ℤ) + 1) ((j : ℤ) + 0) ↔ (i + 1 < n) := by
    unfold inBnd; omega
  have a8 : inBnd n n ((i : ℤ) + 1) ((j : ℤ) + 1) ↔ (i + 1 < n ∧ j + 1 < n) := by
    unfold inBnd; omega
  have b1 : (i = 0) ↔ ¬ 1 ≤ i := by omega
  have b2 : (i = n - 1) ↔ ¬ i + 1 < n := by omega
  have b3 : (j = 0) ↔ ¬ 1 ≤ j := by omega
  have b4 : (j = n - 1) ↔ ¬ j + 1 < n := by omega
  simp only [directions, List.countP_cons, List.countP_nil, decide_eq_true_eq,
    a1, a2, a3, a4, a5, a6, a7, a8, b1, b2, b3, b4]
  by_cases hP : 1 ≤ i <;> by_cases hQ : i + 1 < n <;>
    by_cases hR : 1 ≤ j <;> by_cases hS : j + 1 < n <;>
    first
      | (exfalso; omega)
      | simp [hP, hQ, hR, hS]

/-- C6 counterexample: on a concrete `3 × 3` feature grid, the token list
generated for the corner coordinate `(0,0)` (the first memo entry) has
length `3` — the corner has only three in-bounds neighbours among the
eight offsets — not `4` as the claim states. -/
theorem hash_corner_count_three :
    (((hash [[(0, 0), (0, 0), (0, 0)], [(0, 0), (0, 0), (0, 0)],
        [(0, 0), (0, 0), (0, 0)]] true).1.getD 0 ("", [])).2).length = 3 ∧
    ¬ (((hash [[(0, 0), (0, 0), (0, 0)], [(0, 0), (0, 0), (0, 0)],
        [(0, 0), (0, 0), (0, 0)]] true).1.getD 0 ("", [])).2).length = 4 := by
  constructor <;> decide

/-- C6 (amended): on a square feature grid of side `n ≥ 3`, the number of
tokens `hash` appends to `memo["(i,j)"]` equals the number of the eight
neighbour offsets that land inside the grid bounds, which is `3` for the
four corner cells, `5` for non-corner border cells, and `8` for interior
cells (the claim's figures `4` and `6` are corrected to `3` and `5`). -/
theorem hash_memo_token_count (blocks : List (List (ℚ × ℚ))) (ext : Bool) (n : ℕ)
    (hn : 3 ≤ n) (hrows : blocks.length = n) (hcols : ∀ row ∈ blocks, row.length = n) :
    ∀ i j, i < n → j < n →
      ∃ toks, (hash blocks ext).1[i * n + j]? = some (s!"({i},{j})", toks) ∧
        toks.length = (if (i = 0 ∨ i = n - 1) ∧ (j = 0 ∨ j = n - 1) then 3
          else if i = 0 ∨ i = n - 1 ∨ j = 0 ∨ j = n - 1 then 5 else 8) := by
  intro i j hi hj
  have hcols0 : (blocks.getD 0 []).length = n := by
    have h0 : 0 < blocks.length := by omega
    rw [List.getD_eq_getElem?_getD, List.getElem?_eq_getElem h0]
    exact hcols _ (List.getElem_mem h0)
  have hunfold : (hash blocks ext).1 =
      (List.range n).flatMap fun a =>
        (List.range n).map fun b =>
          (s!"({a},{b})", hashCellTokens blocks ext n n ((n : ℚ) / 2) a b) := by
    simp only [hash]
    rw [hrows, hcols0]
  have hget := flatMap_map_getElem (List.range n) (List.range n)
    (fun a b => (s!"({a},{b})", hashCellTokens blocks ext n n ((n : ℚ) / 2) a b))
    i j (by simpa using hi) (by simpa using hj)
  simp only [List.getElem_range, List.length_range] at hget
  refine ⟨_, by rw [hunfold]; exact hget, ?_⟩
  rw [hashCellTokens_length, count_dirs n i j hn hi hj]

/-- Witness for `hash_memo_token_count`: a concrete `3 × 3` grid, where
the interior coordinate `(1,1)` receives all `8` neighbour tokens. -/
theorem hash_memo_token_count_witness :
    ∃ toks, (hash [[(1, 2), (1, 2), (1, 2)], [(1, 2), (1, 2), (1, 2)],
        [(1, 2), (1, 2), (1, 2)]] false).1[1 * 3 + 1]? = some (s!"({(1 : ℕ)},{(1 : ℕ)})", toks) ∧
      toks.length = (if ((1 : ℕ) = 0 ∨ 1 = 3 - 1) ∧ ((1 : ℕ) = 0 ∨ 1 = 3 - 1) then 3
        else if (1 : ℕ) = 0 ∨ 1 = 3 - 1 ∨ (1 : ℕ) = 0 ∨ 1 = 3 - 1 then 5 else 8) :=
  hash_memo_token_count
    [[(1, 2), (1, 2), (1, 2)], [(1, 2), (1, 2), (1, 2)], [(1, 2), (1, 2), (1, 2)]]
    false 3 (by decide) rfl (by decide) 1 1 (by decide) (by decide)

/-! ## `fft1D` / `fft2D`: the radix-2 transform of `I_mat`

`fft1D` (`src/analyse/pattern_detection.js` lines 239–270) is the
recursive radix-2 transform: a length-1 input is copied; otherwise the
input is split into even- and odd-indexed sublists, both are transformed
recursively, and the combine loop runs `for (k = 0; k < n/2; k++)` —
`⌈n/2⌉` iterations, since `n/2` is real division — reading
`evenTransformed[k]` and `oddTransformed[k]`.

Failure modelling (`Option`): for an input whose length is odd and `≥ 3`
the combine loop reads `oddTransformed[(n-1)/2]`, which is `undefined`,
and `exponent.multiply(undefined)` throws a `TypeError`; an out-of-range
read is therefore modelled as `none`, and `none` propagates through the
recursion exactly as a thrown exception would.  Even if every read
succeeded, an odd `n` would make the loop write `output[k + n/2]` at
fractional indices, leaving the integer slots beyond `⌈n/2⌉` as
`undefined` holes — the `n % 2` guard returns `none` for that (otherwise
unreachable) case as well.  A length-0 input recurses on itself forever
(stack overflow), modelled as `none`; `fuel ≥ n` is always sufficient
for the genuine recursion, whose sublists strictly shrink.

The complex scalars are exact rationals; the twiddle factor
`new Complex(cos(-2πk/n), sin(-2πk/n))` is transcendental, so it is
abstracted as a parameter `wf k n` — no claim here depends on its value. -/

/-- The `Complex` class defined inside `I_mat`. -/
structure Complex where
  real : ℚ
  imag : ℚ
deriving DecidableEq, Repr

def Complex.add (a b : Complex) : Complex := ⟨a.real + b.real, a.imag + b.imag⟩

def Complex.subtract (a b : Complex) : Complex := ⟨a.real - b.real, a.imag - b.imag⟩

def Complex.multiply (a b : Complex) : Complex :=
  ⟨a.real * b.real - a.imag * b.imag, a.real * b.imag + a.imag * b.real⟩

/-- The even-indexed elements (`input[0], input[2], …`). -/
def evens {α : Type} : List α → List α
  | [] => []
  | [a] => [a]
  | a :: _ :: rest => a :: evens rest

/-- The odd-indexed elements (`input[1], input[3], …`). -/
def odds {α : Type} : List α → List α
  | [] => []
  | _ :: rest => evens rest

theorem evens_length {α : Type} (l : List α) : (evens l).length = (l.length + 1) / 2 := by
  induction l using evens.induct with
  | case1 => simp [evens]
  | case2 a => simp [evens]
  | case3 a b rest ih => simp [evens, ih]; omega

theorem odds_length {α : Type} (l : List α) : (odds l).length = l.length / 2 := by
  cases l with
  | nil => simp [odds]
  | cons a rest => simp [odds, evens_length]

/-- Option-valued map: `some` exactly when every element maps to `some`.
Used for the index-guarded loops of `fft1D`/`fft2D`. -/
def mapO {α β : Type} (f : α → Option β) : List α → Option (List β)
  | [] => some []
  | a :: l => (f a).bind fun b => (mapO f l).map fun rest => b :: rest

/-- The combine loop body of `fft1D` at index `k`: read
`evenTransformed[k]` and `oddTransformed[k]`, multiply the odd term by
the twiddle factor, and produce the pair
`(output[k], output[k + n/2]) = (even + term, even − term)`. -/
def combineAt (wf : ℕ → ℕ → Complex) (n : ℕ) (evenT oddT : List Complex)
    (k : ℕ) : Option (Complex × Complex) :=
  match evenT[k]?, oddT[k]? with
  | some e, some o =>
      let term := (wf k n).multiply o
      some (e.add term, e.subtract term)
  | _, _ => none

/-- `fft1D(input)` with the twiddle factor abstracted as `wf`. -/
def fft1D (wf : ℕ → ℕ → Complex) : ℕ → List Complex → Option (List Complex)
  | 0, _ => none
  | fuel + 1, input =>
    let n := input.length
    if n = 0 then none
    else if n = 1 then some [Complex.mk (input.getD 0 ⟨0, 0⟩).real (input.getD 0 ⟨0, 0⟩).imag]
    else
      (fft1D wf fuel (evens input)).bind fun evenT =>
      (fft1D wf fuel (odds input)).bind fun oddT =>
      (mapO (combineAt wf n evenT oddT) (List.range ((n + 1) / 2))).bind fun terms =>
      if n % 2 = 0 then some ((terms.map Prod.fst) ++ (terms.map Prod.snd)) else none

/-- `fft2D(matrix)`: transform every row, then every column of the
row-transformed matrix, and reassemble `result[i][j]`; every array read
is index-guarded as in `fft1D`. -/
def fft2D (wf : ℕ → ℕ → Complex) (fuel : ℕ) (matrix : List (List ℚ)) :
    Option (List (List Complex)) :=
  let rows := matrix.length
  (mapO (fun row => fft1D wf fuel (row.map fun val => Complex.mk val 0)) matrix).bind
    fun rowT =>
  (mapO (fun j =>
      (mapO (fun i2 => (rowT.getD i2 [])[j]?) (List.range rows)).bind fun col =>
        fft1D wf fuel col)
    (List.range ((matrix.getD 0 []).length))).bind fun colT =>
  mapO (fun i2 => mapO (fun j => (colT.getD j [])[i2]?)
    (List.range ((matrix.getD 0 []).length))) (List.range rows)

theorem mapO_isSome_iff {α β : Type} (f : α → Option β) (l : List α) :
    (mapO f l).isSome ↔ ∀ a ∈ l, (f a).isSome := by
  induction l with
  | nil => simp [mapO]
  | cons a l ih =>
      simp only [mapO, List.mem_cons]
      cases hfa : f a with
      | none => simp [hfa]
      | some b =>
          cases hml : mapO f l with
          | none => simp [hfa, hml, ← ih]
          | some out => simp [hfa, hml, ← ih]

theorem mapO_length {α β : Type} (f : α → Option β) (l : List α) (out : List β)
    (h : mapO f l = some out) : out.length = l.length := by
  induction l generalizing out with
  | nil => simp [mapO] at h; simp [← h]
  | cons a l ih =>
      simp only [mapO] at h
      cases hfa : f a with
      | none => rw [hfa] at h; simp at h
      | some b =>
          rw [hfa] at h
          cases hml : mapO f l with
          | none => rw [hml] at h; simp at h
          | some rest =>
              rw [hml] at h
              simp at h
              rw [← h]
              simp [ih rest hml]

theorem mapO_getElem {α β : Type} (f : α → Option β) (l : List α) (out : List β)
    (h : mapO f l = some out) (i : ℕ) (hi : i < l.length) :
    out[i]? = f l[i] := by
  induction l generalizing out i with
  | nil => simp at hi
  | cons a l ih =>
      simp only [mapO] at h
      cases hfa : f a with
      | none => rw [hfa] at h; simp at h
      | some b =>
          rw [hfa] at h
          cases hml : mapO f l with
          | none => rw [hml] at h; simp at h
          | some rest =>
              rw [hml] at h
              simp at h
              subst h
              cases i with
              | zero => simpa using hfa.symm
              | succ i => simpa using ih rest hml i (by simpa using hi)

theorem pow_two_half (n : ℕ) (h2 : 2 ≤ n) (he : n % 2 = 0) :
    (∃ k, n = 2 ^ k) ↔ (∃ k, n / 2 = 2 ^ k) := by
  constructor
  · rintro ⟨k, rfl⟩
    match k with
    | 0 => omega
    | k + 1 => exact ⟨k, by rw [Nat.pow_succ]; omega⟩
  · rintro ⟨k, hk⟩
    exact ⟨k + 1, by rw [Nat.pow_succ]; omega⟩

/-- Success/failure characterization of `fft1D`: with sufficient fuel, a
non-empty input transforms successfully (with preserved length) exactly
when its length is a power of two, and fails (`none`) otherwise. -/
theorem fft1D_char (wf : ℕ → ℕ → Complex) :
    ∀ fuel (input : List Complex), 1 ≤ input.length → input.length ≤ fuel →
      ((∃ k, input.length = 2 ^ k) →
        ∃ out, fft1D wf fuel input = some out ∧ out.length = input.length) ∧
      (¬ (∃ k, input.length = 2 ^ k) → fft1D wf fuel input = none) := by
  intro fuel
  induction fuel using Nat.strong_induction_on with
  | _ fuel ih =>
    intro input h1 hle
    rcases fuel with _ | f
    · omega
    · by_cases hn1 : input.length = 1
      · constructor
        · intro _
          refine ⟨[Complex.mk (input.getD 0 ⟨0, 0⟩).real (input.getD 0 ⟨0, 0⟩).imag],
            ?_, ?_⟩
          · simp only [fft1D]
            rw [if_neg (by omega), if_pos hn1]
          · simp [hn1]
        · intro hnp
          exact absurd ⟨0, by omega⟩ hnp
      · have h2 : 2 ≤ input.length := by omega
        have hev : (evens input).length = (input.length + 1) / 2 := evens_length _
        have hod : (odds input).length = input.length / 2 := odds_length _
        by_cases hpar : input.length % 2 = 0
        · -- even length at least 2
          have hhalf : (input.length + 1) / 2 = input.length / 2 := by omega
          have hpow := pow_two_half input.length h2 hpar
          by_cases hp : ∃ k, input.length = 2 ^ k
          · have hp2 : ∃ k, input.length / 2 = 2 ^ k := hpow.mp hp
            obtain ⟨eT, heT, heLen⟩ :=
              (ih f (by omega) (evens input) (by omega) (by omega)).1 (by rw [hev, hhalf]; exact hp2)
            obtain ⟨oT, hoT, hoLen⟩ :=
              (ih f (by omega) (odds input) (by omega) (by omega)).1 (by rw [hod]; exact hp2)
            have hco : ∀ k' ∈ List.range ((input.length + 1) / 2),
                (combineAt wf input.length eT oT k').isSome := by
              intro k' hk'
              rw [List.mem_range] at hk'
              have hke : k' < eT.length := by omega
              have hko : k' < oT.length := by omega
              rw [combineAt, List.getElem?_eq_getElem hke, List.getElem?_eq_getElem hko]
              rfl
            obtain ⟨terms, hterms⟩ := Option.isSome_iff_exists.mp
              ((mapO_isSome_iff _ _).mpr hco)
            refine ⟨fun _ => ⟨(terms.map Prod.fst) ++ (terms.map Prod.snd), ?_, ?_⟩,
              fun hnp => absurd hp hnp⟩
            · simp only [fft1D]
              rw [if_neg (by omega), if_neg hn1, heT]
              simp only [Option.some_bind]
              rw [hoT]
              simp only [Option.some_bind]
              rw [hterms]
              simp only [Option.some_bind]
              rw [if_pos hpar]
            · have := mapO_length _ _ _ hterms
              simp only [List.length_range] at this
              simp only [List.length_append, List.length_map, this]
              omega
          · have hp2 : ¬ ∃ k, input.length / 2 = 2 ^ k := fun h => hp (hpow.mpr h)
            have hnone :=
              (ih f (by omega) (evens input) (by omega) (by omega)).2 (by rw [hev, hhalf]; exact hp2)
            refine ⟨fun h => absurd h hp, fun _ => ?_⟩
            simp only [fft1D]
            rw [if_neg (by omega), if_neg hn1, hnone]
            rfl
        · -- odd length at least 3: never a power of two, and the result is none
          have hnpow : ¬ ∃ k, input.length = 2 ^ k := by
            rintro ⟨k, hk⟩
            match k with
            | 0 => omega
            | k + 1 =>
                rw [Nat.pow_succ] at hk
                omega
          refine ⟨fun hp => absurd hp hnpow, fun _ => ?_⟩
          simp only [fft1D]
          rw [if_neg (by omega), if_neg hn1]
          cases he : fft1D wf f (evens input) with
          | none => rfl
          | some eT =>
              simp only [Option.some_bind]
              cases ho : fft1D wf f (odds input) with
              | none => rfl
              | some oT =>
                  simp only [Option.some_bind]
                  cases hm : mapO (combineAt wf input.length eT oT)
                      (List.range ((input.length + 1) / 2)) with
                  | none => rfl
                  | some terms =>
                      simp only [Option.some_bind]
                      rw [if_neg hpar]

theorem fft2D_char (wf : ℕ → ℕ → Complex) (fuel : ℕ) (m : List (List ℚ)) (s : ℕ)
    (hs : 1 ≤ s) (hf : s ≤ fuel) (hrows : m.length = s)
    (hcols : ∀ row ∈ m, row.length = s) :
    (fft2D wf fuel m).isSome ↔ ∃ k, s = 2 ^ k := by
  have hcols0 : (m.getD 0 []).length = s := by
    have h0 : 0 < m.length := by omega
    rw [List.getD_eq_getElem?_getD, List.getElem?_eq_getElem h0]
    exact hcols _ (List.getElem_mem h0)
  constructor
  · intro hsome
    by_contra hnp
    rcases hm : m with _ | ⟨r0, rest⟩
    · rw [hm] at hrows; simp at hrows; omega
    · have hr0mem : r0 ∈ m := by rw [hm]; simp
      have hr0len : (r0.map fun val => Complex.mk val 0).length = s := by
        simp [hcols r0 hr0mem]
      have hnone := (fft1D_char wf fuel (r0.map fun val => Complex.mk val 0)
        (by omega) (by omega)).2 (by rw [hr0len]; exact hnp)
      rw [hm] at hsome
      simp [fft2D, mapO, hnone] at hsome
  · intro hp
    have hrowsome : ∀ row ∈ m,
        (fft1D wf fuel (row.map fun val => Complex.mk val 0)).isSome := by
      intro row hrow
      have hlen : (row.map fun val => Complex.mk val 0).length = s := by
        simp [hcols row hrow]
      obtain ⟨out, ho, _⟩ := (fft1D_char wf fuel (row.map fun val => Complex.mk val 0)
        (by rw [hlen]; omega) (by rw [hlen]; omega)).1 (by rw [hlen]; exact hp)
      simp [ho]
    obtain ⟨rowT, hrowT⟩ := Option.isSome_iff_exists.mp
      ((mapO_isSome_iff _ _).mpr hrowsome)
    have hrowTel : ∀ i2, i2 < s → ∃ out, rowT[i2]? = some out ∧ out.length = s := by
      intro i2 hi2
      have hi2' : i2 < m.length := by omega
      have hgm := mapO_getElem _ _ _ hrowT i2 hi2'
      have hmem : m[i2] ∈ m := List.getElem_mem _
      have hlen : (m[i2].map fun val => Complex.mk val 0).length = s := by
        simp [hcols _ hmem]
      obtain ⟨out, ho, holen⟩ := (fft1D_char wf fuel (m[i2].map fun val => Complex.mk val 0)
        (by rw [hlen]; omega) (by rw [hlen]; omega)).1 (by rw [hlen]; exact hp)
      exact ⟨out, by rw [hgm, ho], by rw [holen, hlen]⟩
    have hcolstage : ∀ j, j < s →
        ∃ cT, ((mapO (fun i2 => (rowT.getD i2 [])[j]?) (List.range s)).bind fun col =>
          fft1D wf fuel col) = some cT ∧ cT.length = s := by
      intro j hj
      have hcolsome : ∀ i2 ∈ List.range s, ((rowT.getD i2 [])[j]?).isSome := by
        intro i2 hi2
        rw [List.mem_range] at hi2
        obtain ⟨out, hout, houtlen⟩ := hrowTel i2 hi2
        rw [List.getD_eq_getElem?_getD, hout]
        simp only [Option.getD_some]
        rw [List.getElem?_eq_getElem (by omega : j < out.length)]
        rfl
      obtain ⟨col, hcol⟩ := Option.isSome_iff_exists.mp
        ((mapO_isSome_iff _ _).mpr hcolsome)
      have hcollen : col.length = s := by
        rw [mapO_length _ _ _ hcol]; simp
      obtain ⟨cT, hcT, hcTlen⟩ := (fft1D_char wf fuel col
        (by rw [hcollen]; omega) (by rw [hcollen]; omega)).1 (by rw [hcollen]; exact hp)
      exact ⟨cT, by rw [hcol]; simpa using hcT, by rw [hcTlen, hcollen]⟩
    simp only [fft2D]
    rw [hrowT]
    simp only [Option.some_bind]
    rw [hcols0, hrows]
    obtain ⟨colT, hcolT⟩ := Option.isSome_iff_exists.mp
      ((mapO_isSome_iff _ _).mpr (by
        intro j hj
        rw [List.mem_range] at hj
        obtain ⟨cT, hcT, _⟩ := hcolstage j hj
        show Option.isSome ((mapO (fun i2 => (rowT.getD i2 [])[j]?) (List.range s)).bind
          fun col => fft1D wf fuel col) = true
        rw [hcT]
        rfl))
    rw [hcolT]
    simp only [Option.some_bind]
    have hcolTel : ∀ j, j < s → ∃ cT, colT[j]? = some cT ∧ cT.length = s := by
      intro j hj
      have hgc := mapO_getElem _ _ _ hcolT j (by simpa using hj)
      obtain ⟨cT, hcT, hcTlen⟩ := hcolstage j hj
      refine ⟨cT, ?_, hcTlen⟩
      rw [hgc, List.getElem_range]
      exact hcT
    apply (mapO_isSome_iff _ _).mpr
    intro i2 hi2
    rw [List.mem_range] at hi2
    apply (mapO_isSome_iff _ _).mpr
    intro j hj
    rw [List.mem_range] at hj
    obtain ⟨cT, hcT, hcTlen⟩ := hcolTel j hj
    rw [List.getD_eq_getElem?_getD, hcT]
    simp only [Option.getD_some]
    rw [List.getElem?_eq_getElem (by omega : i2 < cT.length)]
    rfl

/-- C8: the radix-2 divide-and-conquer transform succeeds exactly on
power-of-two lengths.  First conjunct: for a non-empty input (and enough
fuel), `fft1D` produces output iff the input length is a power of two —
on any other length it fails (an out-of-range `oddTransformed` read is hit
or, for even non-power lengths, the recursion reaches one).  Second
conjunct: consequently `fft2D`, which `I_mat` applies per block to the
`blockSize × blockSize` normalized block, produces feature input iff the
block side is a power of two; for every non-power-of-two `blockSize` the
stage fails instead of producing feature output. -/
theorem radix2_power_of_two_required (wf : ℕ → ℕ → Complex) :
    (∀ fuel (input : List Complex), 1 ≤ input.length → input.length ≤ fuel →
      ((fft1D wf fuel input).isSome ↔ ∃ k, input.length = 2 ^ k)) ∧
    (∀ fuel (m : List (List ℚ)) (s : ℕ), 1 ≤ s → s ≤ fuel → m.length = s →
      (∀ row ∈ m, row.length = s) →
      ((fft2D wf fuel m).isSome ↔ ∃ k, s = 2 ^ k)) := by
  constructor
  · intro fuel input h1 hle
    constructor
    · intro hsome
      by_contra hnp
      rw [(fft1D_char wf fuel input h1 hle).2 hnp] at hsome
      simp at hsome
    · intro hp
      obtain ⟨out, ho, _⟩ := (fft1D_char wf fuel input h1 hle).1 hp
      simp [ho]
  · intro fuel m s hs hf hrows hcols
    exact fft2D_char wf fuel m s hs hf hrows hcols

/-- Witness for `radix2_power_of_two_required`: a concrete length-3 input
(3 is not a power of two; the transform fails on it). -/
theorem radix2_power_of_two_required_witness :
    (fft1D (fun _ _ => Complex.mk 1 0) 3
        [Complex.mk 1 0, Complex.mk 2 0, Complex.mk 3 0]).isSome ↔
      ∃ k, ([Complex.mk 1 0, Complex.mk 2 0, Complex.mk 3 0] : List Complex).length = 2 ^ k :=
  (radix2_power_of_two_required (fun _ _ => Complex.mk 1 0)).1 3
    [Complex.mk 1 0, Complex.mk 2 0, Complex.mk 3 0] (by decide) (by decide)

/-! ## Correctness of `findclusters` (C3)

The remainder of the development characterizes `findclusters` against the
specification's description: the flood fill `dfs` clears exactly the
4-connected component of its start cell and returns its cardinality, and
the row-major scan therefore discovers every component exactly once, at
its row-major least cell.  Cells are pairs `(i, j) : ℤ × ℤ` (row,
column), matching the call `dfs(i, j)`. -/

/-- Row lengths of a grid; invariant under `setCell`. -/
def shape (g : Grid) : List ℕ := g.map List.length

theorem cellZ_nonneg_eq (g : Grid) (i j : ℤ) (hi : 0 ≤ i) (hj : 0 ≤ j) :
    cellZ g i j = (g.getD i.toNat []).getD j.toNat 0 := by
  unfold cellZ
  rw [if_pos ⟨hi, hj⟩]

theorem cellZ_ne_zero_bounds (g : Grid) (i j : ℤ) (h : cellZ g i j ≠ 0) :
    0 ≤ i ∧ 0 ≤ j ∧ i.toNat < g.length ∧ j.toNat < (g.getD i.toNat []).length := by
  unfold cellZ at h
  by_cases hij : 0 ≤ i ∧ 0 ≤ j
  · rw [if_pos hij] at h
    have hA : i.toNat < g.length := by
      by_contra hlen
      rw [List.getD_eq_default g [] (by omega)] at h
      simp at h
    refine ⟨hij.1, hij.2, hA, ?_⟩
    by_contra hlen
    rw [List.getD_eq_default (g.getD i.toNat []) 0 (by omega)] at h
    exact h rfl
  · rw [if_neg hij] at h
    exact absurd rfl h

/-- Reading an updated list: `getD` after `set`, when the write is in
range. -/
theorem getD_set {α : Type} (l : List α) (a : ℕ) (v : α) (d : α)
    (hA : a < l.length) (i : ℕ) :
    (l.set a v).getD i d = if a = i then v else l.getD i d := by
  rw [List.getD_eq_getElem?_getD, List.getElem?_set]
  by_cases hia : a = i
  · rw [if_pos hia, if_pos hia, if_pos hA]
    rfl
  · rw [if_neg hia, if_neg hia, List.getD_eq_getElem?_getD]

theorem shape_setCell (g : Grid) (a b v : ℕ) : shape (setCell g a b v) = shape g := by
  unfold setCell shape
  induction g generalizing a with
  | nil => simp
  | cons r rest ih =>
      cases a with
      | zero => simp
      | succ a =>
          simp only [List.getD_cons_succ, List.set_cons_succ, List.map_cons,
            List.cons.injEq, true_and]
          exact ih a

theorem cellZ_setCell (g : Grid) (a b v : ℕ) (hA : a < g.length)
    (hB : b < (g.getD a []).length) (i j : ℤ) :
    cellZ (setCell g a b v) i j =
      if i = (a : ℤ) ∧ j = (b : ℤ) then v else cellZ g i j := by
  by_cases hij : 0 ≤ i ∧ 0 ≤ j
  · rw [cellZ_nonneg_eq _ _ _ hij.1 hij.2]
    unfold setCell
    rw [getD_set g a _ [] hA i.toNat]
    by_cases hia : a = i.toNat
    · rw [if_pos hia, getD_set _ b v 0 hB j.toNat]
      by_cases hjb : b = j.toNat
      · rw [if_pos hjb, if_pos ⟨by omega, by omega⟩]
      · rw [if_neg hjb, if_neg (by rintro ⟨h1, h2⟩; exact hjb (by omega))]
        rw [cellZ_nonneg_eq _ _ _ hij.1 hij.2, hia]
    · rw [if_neg hia, if_neg (by rintro ⟨h1, h2⟩; exact hia (by omega))]
      rw [cellZ_nonneg_eq _ _ _ hij.1 hij.2]
  · have hz : cellZ (setCell g a b v) i j = 0 := by
      unfold cellZ
      rw [if_neg hij]
    have hz' : cellZ g i j = 0 := by
      unfold cellZ
      rw [if_neg hij]
    rw [hz, hz', if_neg (by rintro ⟨h1, h2⟩; exact hij ⟨by omega, by omega⟩)]

theorem countP_one_set_zero (r : List ℕ) (b : ℕ) (hB : b < r.length)
    (h1 : r.getD b 0 = 1) :
    (r.set b 0).countP (· = 1) + 1 = r.countP (· = 1) := by
  rw [List.countP_set _ _ _ _ hB]
  have hrb : r[b] = 1 := by
    rw [List.getD_eq_getElem?_getD, List.getElem?_eq_getElem hB] at h1
    simpa using h1
  have hpos : 0 < r.countP (· = 1) := by
    rw [List.countP_pos_iff]
    exact ⟨1, by rw [← hrb]; exact List.getElem_mem hB, by simp⟩
  simp [hrb]
  omega

theorem onesCount_setCell (g : Grid) (a b : ℕ) (hA : a < g.length)
    (hB : b < (g.getD a []).length) (h1 : (g.getD a []).getD b 0 = 1) :
    onesCount (setCell g a b 0) + 1 = onesCount g := by
  unfold setCell onesCount
  induction g generalizing a with
  | nil => simp at hA
  | cons r rest ih =>
      cases a with
      | zero =>
          simp only [List.getD_cons_zero] at hB h1 ⊢
          simp only [List.set_cons_zero, List.map_cons, List.sum_cons]
          have := countP_one_set_zero r b hB h1
          omega
      | succ a =>
          simp only [List.getD_cons_succ] at hB h1 ⊢
          simp only [List.set_cons_succ, List.map_cons, List.sum_cons]
          have := ih a (by simpa using hA) hB h1
          omega

theorem onesCount_pos_of_one (g : Grid) (i j : ℤ) (h : cellZ g i j = 1) :
    1 ≤ onesCount g := by
  obtain ⟨hi, hj, hA, hB⟩ := cellZ_ne_zero_bounds g i j (by omega)
  rw [cellZ_nonneg_eq _ _ _ hi hj] at h
  have hmem : (1 : ℕ) ∈ g.getD i.toNat [] := by
    rw [← h]
    have hg : (g.getD i.toNat []).getD j.toNat 0 = (g.getD i.toNat [])[j.toNat] := by
      rw [List.getD_eq_getElem?_getD (g.getD i.toNat []), List.getElem?_eq_getElem hB]
      rfl
    rw [hg]
    exact List.getElem_mem hB
  have hrowmem : g.getD i.toNat [] ∈ g := by
    have hg : g.getD i.toNat [] = g[i.toNat] := by
      rw [List.getD_eq_getElem?_getD, List.getElem?_eq_getElem hA]
      rfl
    rw [hg]
    exact List.getElem_mem hA
  unfold onesCount
  calc (1 : ℕ) ≤ (g.getD i.toNat []).countP (· = 1) := by
        have hpos : 0 < List.countP (fun x => decide (x = 1)) (g.getD i.toNat []) :=
          List.countP_pos_iff.mpr ⟨1, hmem, by decide⟩
        omega
  _ ≤ (g.map fun r => r.countP (· = 1)).sum := by
        apply List.single_le_sum (by intro x _; omega)
        rw [List.mem_map]
        exact ⟨g.getD i.toNat [], hrowmem, rfl⟩

/-- `g'` is `g` with exactly the cells of `S` cleared to `0` (and nothing
else changed, shape included). -/
def ClearsTo (g : Grid) (S : Set (ℤ × ℤ)) (g' : Grid) : Prop :=
  shape g' = shape g ∧
  (∀ x : ℤ × ℤ, x ∈ S → cellZ g' x.1 x.2 = 0) ∧
  (∀ x : ℤ × ℤ, x ∉ S → cellZ g' x.1 x.2 = cellZ g x.1 x.2)

theorem clearsTo_refl (g : Grid) : ClearsTo g ∅ g :=
  ⟨rfl, fun x hx => absurd hx (Set.not_mem_empty x), fun _ _ => rfl⟩

theorem clearsTo_trans {g g' g'' : Grid} {S S' : Set (ℤ × ℤ)}
    (h1 : ClearsTo g S g') (h2 : ClearsTo g' S' g'') :
    ClearsTo g (S ∪ S') g'' := by
  obtain ⟨hs1, hin1, hout1⟩ := h1
  obtain ⟨hs2, hin2, hout2⟩ := h2
  refine ⟨hs2.trans hs1, ?_, ?_⟩
  · intro x hx
    rcases hx with hx | hx
    · by_cases hx' : x ∈ S'
      · exact hin2 x hx'
      · rw [hout2 x hx']
        exact hin1 x hx
    · exact hin2 x hx
  · intro x hx
    rw [Set.mem_union] at hx
    push_neg at hx
    rw [hout2 x hx.2, hout1 x hx.1]

theorem clearsTo_cell_cases {g g' : Grid} {S : Set (ℤ × ℤ)}
    (h : ClearsTo g S g') (i j : ℤ) :
    cellZ g' i j = cellZ g i j ∨ cellZ g' i j = 0 := by
  by_cases hx : (i, j) ∈ S
  · exact Or.inr (h.2.1 (i, j) hx)
  · exact Or.inl (h.2.2 (i, j) hx)

theorem countP_eq_sum_range (r : List ℕ) :
    r.countP (· = 1) =
      ((List.range r.length).map fun j => if r.getD j 0 = 1 then 1 else 0).sum := by
  induction r with
  | nil => rfl
  | cons a l ih =>
      rw [List.countP_cons]
      simp only [List.length_cons, List.range_succ_eq_map, List.map_cons,
        List.sum_cons, List.map_map]
      have hcomp : ((fun j => if (a :: l).getD j 0 = 1 then 1 else 0) ∘ Nat.succ) =
          fun j => if l.getD j 0 = 1 then (1 : ℕ) else 0 := by
        funext j
        simp [List.getD_cons_succ]
      rw [hcomp, ← ih]
      simp only [List.getD_cons_zero]
      by_cases ha : a = 1
      · simp [ha]
        omega
      · simp [ha]

theorem map_sum_eq_sum_range {α : Type} (g : List α) (f : α → ℕ) (d : α) :
    (g.map f).sum = ((List.range g.length).map fun i => f (g.getD i d)).sum := by
  induction g with
  | nil => rfl
  | cons a l ih =>
      simp only [List.map_cons, List.sum_cons, List.length_cons,
        List.range_succ_eq_map, List.map_map]
      have hcomp : ((fun i => f ((a :: l).getD i d)) ∘ Nat.succ) =
          fun i => f (l.getD i d) := by
        funext i
        simp [List.getD_cons_succ]
      rw [hcomp, ← ih]
      simp [List.getD_cons_zero]

theorem sum_range_le (f f' : ℕ → ℕ) (n : ℕ) (h : ∀ i, i < n → f i ≤ f' i) :
    ((List.range n).map f).sum ≤ ((List.range n).map f').sum := by
  induction n with
  | zero => simp
  | succ n ih =>
      rw [List.range_succ]
      simp only [List.map_append, List.sum_append, List.map_cons, List.sum_cons,
        List.map_nil, List.sum_nil]
      have h1 := ih fun i hi => h i (by omega)
      have h2 := h n (by omega)
      omega

theorem onesCount_le_of_clearsTo {g g' : Grid} {S : Set (ℤ × ℤ)}
    (h : ClearsTo g S g') : onesCount g' ≤ onesCount g := by
  have hlen : g'.length = g.length := by
    have := congrArg List.length h.1
    simpa [shape] using this
  have hrowlen : ∀ i, i < g.length → (g'.getD i []).length = (g.getD i []).length := by
    intro i hi
    have h1 : (shape g')[i]? = (shape g)[i]? := by rw [h.1]
    simp only [shape, List.getElem?_map] at h1
    rw [List.getElem?_eq_getElem (show i < g.length from hi),
      List.getElem?_eq_getElem (show i < g'.length from by omega)] at h1
    simp only [Option.map_some, Option.some.injEq] at h1
    rw [List.getD_eq_getElem?_getD, List.getD_eq_getElem?_getD,
      List.getElem?_eq_getElem (show i < g.length from hi),
      List.getElem?_eq_getElem (show i < g'.length from by omega)]
    simpa using h1
  unfold onesCount
  rw [map_sum_eq_sum_range g _ [], map_sum_eq_sum_range g' _ [], hlen]
  apply sum_range_le
  intro i hi
  rw [countP_eq_sum_range, countP_eq_sum_range, hrowlen i hi]
  apply sum_range_le
  intro j hj
  have hcase := clearsTo_cell_cases h (i : ℤ) (j : ℤ)
  rw [cellZ_nonneg_eq g' (i : ℤ) (j : ℤ) (Int.natCast_nonneg i) (Int.natCast_nonneg j),
    cellZ_nonneg_eq g (i : ℤ) (j : ℤ) (Int.natCast_nonneg i) (Int.natCast_nonneg j)] at hcase
  simp only [Int.toNat_natCast] at hcase
  rcases hcase with hc | hc
  · rw [hc]
  · rw [hc]
    by_cases hone : (g.getD i []).getD j 0 = 1 <;> simp [hone]

/-! ### 4-connectivity on a grid -/

/-- 4-adjacency of grid cells (up/down/left/right neighbours). -/
def adj (a b : ℤ × ℤ) : Prop :=
  (b.1 = a.1 + 1 ∧ b.2 = a.2) ∨ (b.1 = a.1 - 1 ∧ b.2 = a.2) ∨
  (b.1 = a.1 ∧ b.2 = a.2 + 1) ∨ (b.1 = a.1 ∧ b.2 = a.2 - 1)

/-- An in-bounds `1`-cell (a suspicious cell the scan can visit). -/
def one (rows cols : ℕ) (g : Grid) (c : ℤ × ℤ) : Prop :=
  0 ≤ c.1 ∧ c.1 < (rows : ℤ) ∧ 0 ≤ c.2 ∧ c.2 < (cols : ℤ) ∧ cellZ g c.1 c.2 = 1

/-- One step of a 4-connected walk through `1`-cells: move to an adjacent
in-bounds `1`-cell. -/
def stepRel (rows cols : ℕ) (g : Grid) (a b : ℤ × ℤ) : Prop :=
  one rows cols g b ∧ adj a b

/-- Reachability along 4-connected `1`-cells. -/
def Reach (rows cols : ℕ) (g : Grid) (a b : ℤ × ℤ) : Prop :=
  Relation.ReflTransGen (stepRel rows cols g) a b

/-- The 4-connected component of `c` among the `1`-cells of `g` (empty
when `c` is itself not an in-bounds `1`-cell). -/
def component (rows cols : ℕ) (g : Grid) (c : ℤ × ℤ) : Set (ℤ × ℤ) :=
  {x | one rows cols g c ∧ Reach rows cols g c x}

theorem adj_symm {a b : ℤ × ℤ} (h : adj a b) : adj b a := by
  unfold adj at h ⊢
  rcases h with ⟨h1, h2⟩ | ⟨h1, h2⟩ | ⟨h1, h2⟩ | ⟨h1, h2⟩
  · exact Or.inr (Or.inl ⟨by omega, by omega⟩)
  · exact Or.inl ⟨by omega, by omega⟩
  · exact Or.inr (Or.inr (Or.inr ⟨by omega, by omega⟩))
  · exact Or.inr (Or.inr (Or.inl ⟨by omega, by omega⟩))

theorem adj_cases {i j : ℤ} {y : ℤ × ℤ} (h : adj (i, j) y) :
    y = (i + 1, j) ∨ y = (i - 1, j) ∨ y = (i, j + 1) ∨ y = (i, j - 1) := by
  unfold adj at h
  rcases h with ⟨h1, h2⟩ | ⟨h1, h2⟩ | ⟨h1, h2⟩ | ⟨h1, h2⟩
  · exact Or.inl (Prod.ext h1 h2)
  · exact Or.inr (Or.inl (Prod.ext h1 h2))
  · exact Or.inr (Or.inr (Or.inl (Prod.ext h1 h2)))
  · exact Or.inr (Or.inr (Or.inr (Prod.ext h1 h2)))

theorem one_of_reach {rows cols : ℕ} {g : Grid} {a b : ℤ × ℤ}
    (ha : one rows cols g a) (h : Reach rows cols g a b) : one rows cols g b := by
  induction h with
  | refl => exact ha
  | tail _ hstep _ => exact hstep.1

theorem reach_symm {rows cols : ℕ} {g : Grid} {a b : ℤ × ℤ}
    (ha : one rows cols g a) (h : Reach rows cols g a b) : Reach rows cols g b a := by
  induction h with
  | refl => exact Relation.ReflTransGen.refl
  | tail hab hstep ih =>
      exact Relation.ReflTransGen.head
        ⟨one_of_reach ha hab, adj_symm hstep.2⟩ ih

theorem mem_component_one {rows cols : ℕ} {g : Grid} {c x : ℤ × ℤ}
    (h : x ∈ component rows cols g c) : one rows cols g x :=
  one_of_reach h.1 h.2

theorem component_self {rows cols : ℕ} {g : Grid} {c : ℤ × ℤ}
    (h : one rows cols g c) : c ∈ component rows cols g c :=
  ⟨h, Relation.ReflTransGen.refl⟩

theorem clearsTo_one_mono {rows cols : ℕ} {g g' : Grid} {S : Set (ℤ × ℤ)}
    (h : ClearsTo g S g') {y : ℤ × ℤ} (hy : one rows cols g' y) :
    one rows cols g y := by
  obtain ⟨h1, h2, h3, h4, h5⟩ := hy
  refine ⟨h1, h2, h3, h4, ?_⟩
  rcases clearsTo_cell_cases h y.1 y.2 with hc | hc
  · omega
  · omega

theorem clearsTo_one_preserved {rows cols : ℕ} {g g' : Grid} {S : Set (ℤ × ℤ)}
    (h : ClearsTo g S g') {y : ℤ × ℤ} (hy : one rows cols g y) (hyS : y ∉ S) :
    one rows cols g' y := by
  obtain ⟨h1, h2, h3, h4, h5⟩ := hy
  exact ⟨h1, h2, h3, h4, by rw [h.2.2 y hyS]; exact h5⟩

theorem clearsTo_reach_mono {rows cols : ℕ} {g g' : Grid} {S : Set (ℤ × ℤ)}
    (h : ClearsTo g S g') {a b : ℤ × ℤ} (hr : Reach rows cols g' a b) :
    Reach rows cols g a b :=
  Relation.ReflTransGen.mono
    (fun _ _ hs => ⟨clearsTo_one_mono h hs.1, hs.2⟩) hr

theorem component_finite (rows cols : ℕ) (g : Grid) (c : ℤ × ℤ) :
    (component rows cols g c).Finite := by
  apply Set.Finite.subset
    (Set.Finite.prod (Set.finite_Icc (0 : ℤ) rows) (Set.finite_Icc (0 : ℤ) cols))
  intro x hx
  have := mem_component_one hx
  obtain ⟨h1, h2, h3, h4, _⟩ := this
  exact ⟨⟨h1, by omega⟩, ⟨h3, by omega⟩⟩

theorem disjoint_clearsTo_component (rows cols : ℕ) {g h : Grid} {X : Set (ℤ × ℤ)}
    (hc : ClearsTo g X h) (d : ℤ × ℤ) :
    Disjoint X (component rows cols h d) := by
  rw [Set.disjoint_left]
  intro x hxX hxS
  have h1 := (mem_component_one hxS).2.2.2.2
  have h0 := hc.2.1 x hxX
  omega

theorem dfs_succ (rows cols f : ℕ) (g : Grid) (i j : ℤ)
    (h : ¬(i < 0 ∨ (rows : ℤ) ≤ i ∨ j < 0 ∨ (cols : ℤ) ≤ j ∨ cellZ g i j ≠ 1)) :
    dfs rows cols (f + 1) g i j =
      ((dfs rows cols f
          (dfs rows cols f
            (dfs rows cols f
              (dfs rows cols f (setCell g i.toNat j.toNat 0) (i + 1) j).1
              (i - 1) j).1
            i (j + 1)).1
          i (j - 1)).1,
        1 + (dfs rows cols f (setCell g i.toNat j.toNat 0) (i + 1) j).2
          + (dfs rows cols f
              (dfs rows cols f (setCell g i.toNat j.toNat 0) (i + 1) j).1
              (i - 1) j).2
          + (dfs rows cols f
              (dfs rows cols f
                (dfs rows cols f (setCell g i.toNat j.toNat 0) (i + 1) j).1
                (i - 1) j).1
              i (j + 1)).2
          + (dfs rows cols f
              (dfs rows cols f
                (dfs rows cols f
                  (dfs rows cols f (setCell g i.toNat j.toNat 0) (i + 1) j).1
                  (i - 1) j).1
                i (j + 1)).1
              i (j - 1)).2) := by
  simp only [dfs]
  rw [if_neg h]

/-- Main characterization of the flood fill: with sufficient fuel,
`dfs(i, j)` clears exactly the 4-connected component of `(i, j)` (and
nothing else) and returns the number of its cells. -/
theorem dfs_char (rows cols : ℕ) :
    ∀ (fuel : ℕ) (g : Grid), onesCount g < fuel → ∀ i j : ℤ,
      ClearsTo g (component rows cols g (i, j)) (dfs rows cols fuel g i j).1 ∧
      (dfs rows cols fuel g i j).2 = (component rows cols g (i, j)).ncard := by
  intro fuel
  induction fuel with
  | zero => intro g h; omega
  | succ f ih =>
    intro g hfuel i j
    by_cases hone : one rows cols g (i, j)
    · have hi0 : 0 ≤ i := hone.1
      have hiR : i < (rows : ℤ) := hone.2.1
      have hj0 : 0 ≤ j := hone.2.2.1
      have hjC : j < (cols : ℤ) := hone.2.2.2.1
      have hcell : cellZ g i j = 1 := hone.2.2.2.2
      obtain ⟨_, _, hA, hB⟩ := cellZ_ne_zero_bounds g i j (by omega)
      have hng : ¬(i < 0 ∨ (rows : ℤ) ≤ i ∨ j < 0 ∨ (cols : ℤ) ≤ j ∨ cellZ g i j ≠ 1) := by
        omega
      rw [dfs_succ rows cols f g i j hng]
      set g0 := setCell g i.toNat j.toNat 0 with hg0
      have hcd : (g.getD i.toNat []).getD j.toNat 0 = 1 := by
        rw [← cellZ_nonneg_eq g i j hi0 hj0]
        exact hcell
      have hones0 : onesCount g0 + 1 = onesCount g := by
        rw [hg0]
        exact onesCount_setCell g i.toNat j.toNat hA hB hcd
      have hlt0 : onesCount g0 < f := by omega
      obtain ⟨h1, hs1⟩ := ih g0 hlt0 (i + 1) j
      set q1 := dfs rows cols f g0 (i + 1) j with hq1
      have hle1 : onesCount q1.1 ≤ onesCount g0 := onesCount_le_of_clearsTo h1
      obtain ⟨h2, hs2⟩ := ih q1.1 (by omega) (i - 1) j
      set q2 := dfs rows cols f q1.1 (i - 1) j with hq2
      have hle2 : onesCount q2.1 ≤ onesCount q1.1 := onesCount_le_of_clearsTo h2
      obtain ⟨h3, hs3⟩ := ih q2.1 (by omega) i (j + 1)
      set q3 := dfs rows cols f q2.1 i (j + 1) with hq3
      have hle3 : onesCount q3.1 ≤ onesCount q2.1 := onesCount_le_of_clearsTo h3
      obtain ⟨h4, hs4⟩ := ih q3.1 (by omega) i (j - 1)
      set q4 := dfs rows cols f q3.1 i (j - 1) with hq4
      -- the cell itself is cleared first
      have hC0 : ClearsTo g {((i : ℤ), (j : ℤ))} g0 := by
        refine ⟨by rw [hg0]; exact shape_setCell g i.toNat j.toNat 0, ?_, ?_⟩
        · intro x hx
          rw [Set.mem_singleton_iff] at hx
          subst hx
          rw [hg0, cellZ_setCell g i.toNat j.toNat 0 hA hB i j,
            if_pos ⟨by omega, by omega⟩]
        · intro x hx
          rw [Set.mem_singleton_iff] at hx
          rw [hg0, cellZ_setCell g i.toNat j.toNat 0 hA hB x.1 x.2,
            if_neg (by
              rintro ⟨ha, hb⟩
              exact hx (Prod.ext (by omega) (by omega)))]
      have hT1 : ClearsTo g ({((i : ℤ), (j : ℤ))} ∪
          component rows cols g0 (i + 1, j)) q1.1 := clearsTo_trans hC0 h1
      have hT2 : ClearsTo g (({((i : ℤ), (j : ℤ))} ∪
          component rows cols g0 (i + 1, j)) ∪
          component rows cols q1.1 (i - 1, j)) q2.1 := clearsTo_trans hT1 h2
      have hT3 : ClearsTo g ((({((i : ℤ), (j : ℤ))} ∪
          component rows cols g0 (i + 1, j)) ∪
          component rows cols q1.1 (i - 1, j)) ∪
          component rows cols q2.1 (i, j + 1)) q3.1 := clearsTo_trans hT2 h3
      have hT4 : ClearsTo g (((({((i : ℤ), (j : ℤ))} ∪
          component rows cols g0 (i + 1, j)) ∪
          component rows cols q1.1 (i - 1, j)) ∪
          component rows cols q2.1 (i, j + 1)) ∪
          component rows cols q3.1 (i, j - 1)) q4.1 := clearsTo_trans hT3 h4
      have hadj1 : adj ((i : ℤ), j) (i + 1, j) := by unfold adj; exact Or.inl ⟨rfl, rfl⟩
      have hadj2 : adj ((i : ℤ), j) (i - 1, j) := by
        unfold adj; exact Or.inr (Or.inl ⟨rfl, rfl⟩)
      have hadj3 : adj ((i : ℤ), j) (i, j + 1) := by
        unfold adj; exact Or.inr (Or.inr (Or.inl ⟨rfl, rfl⟩))
      have hadj4 : adj ((i : ℤ), j) (i, j - 1) := by
        unfold adj; exact Or.inr (Or.inr (Or.inr ⟨rfl, rfl⟩))
      have hkey : component rows cols g (i, j) =
          (((({((i : ℤ), (j : ℤ))} ∪ component rows cols g0 (i + 1, j)) ∪
            component rows cols q1.1 (i - 1, j)) ∪
            component rows cols q2.1 (i, j + 1)) ∪
            component rows cols q3.1 (i, j - 1)) := by
        ext x
        simp only [Set.mem_union, Set.mem_singleton_iff]
        constructor
        · rintro ⟨_, hreach⟩
          induction hreach with
          | refl => exact Or.inl (Or.inl (Or.inl (Or.inl rfl)))
          | tail hab hstep ihb =>
              rename_i b y
              by_cases hyU : ((((y = ((i : ℤ), (j : ℤ)) ∨
                  y ∈ component rows cols g0 (i + 1, j)) ∨
                  y ∈ component rows cols q1.1 (i - 1, j)) ∨
                  y ∈ component rows cols q2.1 (i, j + 1)) ∨
                  y ∈ component rows cols q3.1 (i, j - 1))
              · exact hyU
              · exfalso
                push_neg at hyU
                obtain ⟨⟨⟨⟨hyne, hyS1⟩, hyS2⟩, hyS3⟩, hyS4⟩ := hyU
                have hy1 : one rows cols g y := hstep.1
                have hy0 : one rows cols g0 y :=
                  clearsTo_one_preserved hC0 hy1 (by simpa using hyne)
                have hyq1 : one rows cols q1.1 y :=
                  clearsTo_one_preserved hT1 hy1 (by
                    simp only [Set.mem_union, Set.mem_singleton_iff]
                    tauto)
                have hyq2 : one rows cols q2.1 y :=
                  clearsTo_one_preserved hT2 hy1 (by
                    simp only [Set.mem_union, Set.mem_singleton_iff]
                    tauto)
                have hyq3 : one rows cols q3.1 y :=
                  clearsTo_one_preserved hT3 hy1 (by
                    simp only [Set.mem_union, Set.mem_singleton_iff]
                    tauto)
                rcases ihb with (((hb | hb) | hb) | hb) | hb
                · subst hb
                  rcases adj_cases hstep.2 with hy | hy | hy | hy
                  · exact hyS1 (by rw [hy]; exact component_self (hy ▸ hy0))
                  · exact hyS2 (by rw [hy]; exact component_self (hy ▸ hyq1))
                  · exact hyS3 (by rw [hy]; exact component_self (hy ▸ hyq2))
                  · exact hyS4 (by rw [hy]; exact component_self (hy ▸ hyq3))
                · exact hyS1 ⟨hb.1, hb.2.tail ⟨hy0, hstep.2⟩⟩
                · exact hyS2 ⟨hb.1, hb.2.tail ⟨hyq1, hstep.2⟩⟩
                · exact hyS3 ⟨hb.1, hb.2.tail ⟨hyq2, hstep.2⟩⟩
                · exact hyS4 ⟨hb.1, hb.2.tail ⟨hyq3, hstep.2⟩⟩
        · rintro ((((hx | hx) | hx) | hx) | hx)
          · subst hx
            exact component_self hone
          · obtain ⟨ho, hr⟩ := hx
            refine ⟨hone, Relation.ReflTransGen.head
              ⟨clearsTo_one_mono hC0 ho, hadj1⟩ (clearsTo_reach_mono hC0 hr)⟩
          · obtain ⟨ho, hr⟩ := hx
            refine ⟨hone, Relation.ReflTransGen.head
              ⟨clearsTo_one_mono hT1 ho, hadj2⟩ (clearsTo_reach_mono hT1 hr)⟩
          · obtain ⟨ho, hr⟩ := hx
            refine ⟨hone, Relation.ReflTransGen.head
              ⟨clearsTo_one_mono hT2 ho, hadj3⟩ (clearsTo_reach_mono hT2 hr)⟩
          · obtain ⟨ho, hr⟩ := hx
            refine ⟨hone, Relation.ReflTransGen.head
              ⟨clearsTo_one_mono hT3 ho, hadj4⟩ (clearsTo_reach_mono hT3 hr)⟩
      constructor
      · show ClearsTo g (component rows cols g (i, j)) q4.1
        rw [hkey]
        exact hT4
      · show 1 + q1.2 + q2.2 + q3.2 + q4.2 = (component rows cols g (i, j)).ncard
        rw [hkey]
        have hf1 := component_finite rows cols g0 (i + 1, j)
        have hf2 := component_finite rows cols q1.1 (i - 1, j)
        have hf3 := component_finite rows cols q2.1 (i, j + 1)
        have hf4 := component_finite rows cols q3.1 (i, j - 1)
        rw [Set.ncard_union_eq (disjoint_clearsTo_component rows cols hT3 (i, j - 1))
          (by
            apply Set.Finite.union
            apply Set.Finite.union
            apply Set.Finite.union (Set.finite_singleton _) hf1
            exacts [hf2, hf3]) hf4]
        rw [Set.ncard_union_eq (disjoint_clearsTo_component rows cols hT2 (i, j + 1))
          (by
            apply Set.Finite.union
            apply Set.Finite.union (Set.finite_singleton _) hf1
            exact hf2) hf3]
        rw [Set.ncard_union_eq (disjoint_clearsTo_component rows cols hT1 (i - 1, j))
          (Set.Finite.union (Set.finite_singleton _) hf1) hf2]
        rw [Set.ncard_union_eq (disjoint_clearsTo_component rows cols hC0 (i + 1, j))
          (Set.finite_singleton _) hf1]
        rw [Set.ncard_singleton, hs1, hs2, hs3, hs4]
    · have hguard : dfs rows cols (f + 1) g i j = (g, 0) := by
        simp only [dfs]
        rw [if_pos (by simp only [one] at hone; omega)]
      have hcomp : component rows cols g (i, j) = ∅ := by
        unfold component
        ext x
        simp only [Set.mem_setOf_eq, Set.mem_empty_iff_false, iff_false]
        rintro ⟨h1, _⟩
        exact hone h1
      rw [hguard, hcomp]
      exact ⟨clearsTo_refl g, by simp⟩

/-! ### Row-major order and discovery cells -/

/-- Non-strict row-major order on cells. -/
def rmLE (a b : ℤ × ℤ) : Prop := a.1 < b.1 ∨ (a.1 = b.1 ∧ a.2 ≤ b.2)

/-- Strict row-major order on cells. -/
def rmLT (a b : ℤ × ℤ) : Prop := a.1 < b.1 ∨ (a.1 = b.1 ∧ a.2 < b.2)

/-- Scan position of an in-bounds cell in the row-major traversal. -/
def rmPos (cols : ℕ) (c : ℤ × ℤ) : ℕ := c.1.toNat * cols + c.2.toNat

/-- `c` is a discovery coordinate: an in-bounds `1`-cell that is the
row-major least cell of its 4-connected component — exactly the cell at
which the scan of `findclusters` first meets the component. -/
def isDisc (rows cols : ℕ) (g : Grid) (c : ℤ × ℤ) : Prop :=
  one rows cols g c ∧ ∀ y ∈ component rows cols g c, rmLE c y

/-- The cells belonging to components whose discovery coordinate has
scan position `< t`: exactly what the scan has cleared after `t` steps. -/
def clearedSet (rows cols : ℕ) (g : Grid) (t : ℕ) : Set (ℤ × ℤ) :=
  {x | ∃ c, isDisc rows cols g c ∧ rmPos cols c < t ∧ x ∈ component rows cols g c}

/-- The aggregate that the specification prescribes for a list `ds` of
discovery coordinates with component-size function `sz`: keep the
coordinates whose component reaches the threshold, and accumulate count,
size list, total size and the distance-weighted score. -/
def specAcc (ms m n : ℕ) (sz : (ℤ × ℤ) → ℕ) (ds : List (ℤ × ℤ)) : ClusterAcc :=
  let qs := ds.filter fun c => decide (ms ≤ sz c)
  { count := qs.length,
    sizes := qs.map sz,
    totalSize := (qs.map sz).sum,
    score := qs.foldl
      (fun s c => s + scoreTerm (sz c) (computedist m n c.2 c.1)) (JNum.fin 0) }

/-- Packaging of the final accumulator into the returned record. -/
def packResult (a : ClusterAcc) : ClusterResult :=
  { count := a.count, sizes := a.sizes, totalSize := a.totalSize, score := some a.score }

theorem rmPos_lt_of_rmLT {cols : ℕ} {a b : ℤ × ℤ}
    (ha : 0 ≤ a.1 ∧ 0 ≤ a.2 ∧ a.2 < (cols : ℤ)) (hb : 0 ≤ b.1 ∧ 0 ≤ b.2)
    (h : rmLT a b) : rmPos cols a < rmPos cols b := by
  unfold rmPos
  rcases h with h | ⟨h1, h2⟩
  · have h3 : a.1.toNat + 1 ≤ b.1.toNat := by omega
    calc a.1.toNat * cols + a.2.toNat < (a.1.toNat + 1) * cols := by
          rw [Nat.succ_mul]; omega
    _ ≤ b.1.toNat * cols := Nat.mul_le_mul_right _ h3
    _ ≤ b.1.toNat * cols + b.2.toNat := by omega
  · have h3 : a.1.toNat = b.1.toNat := by omega
    rw [h3]
    omega

theorem rmPos_le_of_rmLE {cols : ℕ} {a b : ℤ × ℤ}
    (ha : 0 ≤ a.1 ∧ 0 ≤ a.2 ∧ a.2 < (cols : ℤ)) (hb : 0 ≤ b.1 ∧ 0 ≤ b.2)
    (h : rmLE a b) : rmPos cols a ≤ rmPos cols b := by
  rcases h with h | ⟨h1, h2⟩
  · exact le_of_lt (rmPos_lt_of_rmLT ha hb (Or.inl h))
  · unfold rmPos
    have h3 : a.1.toNat = b.1.toNat := by omega
    rw [h3]
    omega

theorem rmLE_or_rmLT (a b : ℤ × ℤ) : rmLE a b ∨ rmLT b a := by
  unfold rmLE rmLT
  omega

theorem rmLT_of_rmPos_lt {cols : ℕ} {a b : ℤ × ℤ}
    (ha : 0 ≤ a.1 ∧ 0 ≤ a.2 ∧ a.2 < (cols : ℤ)) (hb : 0 ≤ b.1 ∧ 0 ≤ b.2 ∧ b.2 < (cols : ℤ))
    (h : rmPos cols a < rmPos cols b) : rmLT a b := by
  rcases rmLE_or_rmLT b a with hle | hlt
  · have := rmPos_le_of_rmLE ⟨hb.1, hb.2.1, hb.2.2⟩ ⟨ha.1, ha.2.1⟩ hle
    omega
  · exact hlt

theorem rmPos_eq_cell {cols t : ℕ} {a : ℤ × ℤ} (h0 : 0 ≤ a.1) (h2 : 0 ≤ a.2)
    (hj : a.2 < (cols : ℤ)) (hpos : rmPos cols a = t) :
    a = (((t / cols : ℕ) : ℤ), ((t % cols : ℕ) : ℤ)) := by
  unfold rmPos at hpos
  have hc0 : 0 < cols := by omega
  have hcomm : a.1.toNat * cols + a.2.toNat = cols * a.1.toNat + a.2.toNat := by ring
  have h1 : a.1.toNat = t / cols := by
    rw [← hpos, hcomm, Nat.mul_add_div hc0, Nat.div_eq_of_lt (by omega), Nat.add_zero]
  have h2' : a.2.toNat = t % cols := by
    rw [← hpos, hcomm, Nat.mul_add_mod, Nat.mod_eq_of_lt (by omega)]
  exact Prod.ext (by omega) (by omega)

theorem component_eq_of_mem {rows cols : ℕ} {g : Grid} {c x : ℤ × ℤ}
    (h : x ∈ component rows cols g c) :
    component rows cols g x = component rows cols g c := by
  have hxone := mem_component_one h
  ext y
  constructor
  · rintro ⟨_, hr⟩
    exact ⟨h.1, Relation.ReflTransGen.trans (reach_symm hxone (reach_symm h.1 h.2)) hr⟩
  · rintro ⟨hc, hr⟩
    exact ⟨hxone, Relation.ReflTransGen.trans (reach_symm hc h.2) hr⟩

theorem component_restore {rows cols : ℕ} {g h : Grid} {S : Set (ℤ × ℤ)}
    (hcl : ClearsTo g S h) {d : ℤ × ℤ}
    (hd : one rows cols g d) (hdisj : ∀ y ∈ component rows cols g d, y ∉ S) :
    component rows cols h d = component rows cols g d := by
  have hd' : one rows cols h d :=
    clearsTo_one_preserved hcl hd (hdisj d (component_self hd))
  ext x
  constructor
  · rintro ⟨_, hr⟩
    exact ⟨hd, clearsTo_reach_mono hcl hr⟩
  · rintro ⟨_, hr⟩
    refine ⟨hd', ?_⟩
    induction hr with
    | refl => exact Relation.ReflTransGen.refl
    | tail hab hstep ih =>
        rename_i b y
        have hyg : y ∈ component rows cols g d := ⟨hd, hab.tail hstep⟩
        exact ih.tail ⟨clearsTo_one_preserved hcl hstep.1 (hdisj y hyg), hstep.2⟩

theorem scanCells_eq (rows cols : ℕ) :
    scanCells rows cols =
      (List.range (rows * cols)).map fun t => (t / cols, t % cols) := by
  rcases Nat.eq_zero_or_pos cols with hc | hc
  · subst hc
    simp [scanCells]
  · induction rows with
    | zero => simp [scanCells]
    | succ r ih =>
        unfold scanCells at ih ⊢
        rw [List.range_succ, List.flatMap_append, ih]
        have hadd : (r + 1) * cols = r * cols + cols := by ring
        rw [hadd, List.range_add, List.map_append]
        congr 1
        simp only [List.flatMap_cons, List.flatMap_nil, List.append_nil, List.map_map]
        apply List.map_congr_left
        intro t ht
        rw [List.mem_range] at ht
        have hcm : r * cols + t = cols * r + t := by ring
        simp only [Function.comp_apply, hcm, Nat.mul_add_div hc, Nat.mul_add_mod,
          Nat.div_eq_of_lt ht, Nat.mod_eq_of_lt ht, Nat.add_zero]

theorem scanStep_eq_pos (rows cols ms m n fuel : ℕ) (st : Grid × ClusterAcc)
    (a b : ℕ) (hv : cellZ st.1 (a : ℤ) (b : ℤ) = 1)
    (hms : ms ≤ (dfs rows cols fuel st.1 (a : ℤ) (b : ℤ)).2) :
    scanStep rows cols ms m n fuel st (a, b) =
      ((dfs rows cols fuel st.1 (a : ℤ) (b : ℤ)).1,
       { count := st.2.count + 1,
         sizes := st.2.sizes ++ [(dfs rows cols fuel st.1 (a : ℤ) (b : ℤ)).2],
         totalSize := st.2.totalSize + (dfs rows cols fuel st.1 (a : ℤ) (b : ℤ)).2,
         score := st.2.score +
           scoreTerm (dfs rows cols fuel st.1 (a : ℤ) (b : ℤ)).2
             (computedist m n (b : ℤ) (a : ℤ)) }) := by
  simp [scanStep, hv, hms]

theorem scanStep_eq_small (rows cols ms m n fuel : ℕ) (st : Grid × ClusterAcc)
    (a b : ℕ) (hv : cellZ st.1 (a : ℤ) (b : ℤ) = 1)
    (hms : ¬ ms ≤ (dfs rows cols fuel st.1 (a : ℤ) (b : ℤ)).2) :
    scanStep rows cols ms m n fuel st (a, b) =
      ((dfs rows cols fuel st.1 (a : ℤ) (b : ℤ)).1, st.2) := by
  simp [scanStep, hv, hms]

theorem scanStep_eq_zero (rows cols ms m n fuel : ℕ) (st : Grid × ClusterAcc)
    (a b : ℕ) (hv : ¬ cellZ st.1 (a : ℤ) (b : ℤ) = 1) :
    scanStep rows cols ms m n fuel st (a, b) = st := by
  simp [scanStep, hv]

theorem specAcc_append_pos (ms m n : ℕ) (sz : (ℤ × ℤ) → ℕ) (ds : List (ℤ × ℤ))
    (c : ℤ × ℤ) (h : ms ≤ sz c) :
    specAcc ms m n sz (ds ++ [c]) =
      { count := (specAcc ms m n sz ds).count + 1,
        sizes := (specAcc ms m n sz ds).sizes ++ [sz c],
        totalSize := (specAcc ms m n sz ds).totalSize + sz c,
        score := (specAcc ms m n sz ds).score +
          scoreTerm (sz c) (computedist m n c.2 c.1) } := by
  simp [specAcc, List.filter_append, h, List.foldl_append]

theorem specAcc_append_neg (ms m n : ℕ) (sz : (ℤ × ℤ) → ℕ) (ds : List (ℤ × ℤ))
    (c : ℤ × ℤ) (h : ¬ ms ≤ sz c) :
    specAcc ms m n sz (ds ++ [c]) = specAcc ms m n sz ds := by
  simp [specAcc, List.filter_append, h]

/-- C3 (general part): for every non-empty grid and threshold,
`findclusters` discovers exactly the 4-connected components of `1`-cells,
each at its row-major least cell (`ds` enumerates those discovery
coordinates in scan order), and aggregates exactly the components whose
cell count reaches the threshold: `count` counts them, `sizes` lists
their cardinalities, `totalSize` sums them, and `score` accumulates
`round((size * 0.4) / (dist * 0.6)) * 100` with
`dist = round(√((x−m)² + (y−n)²))` taken at the discovery coordinate
(and an infinite term when that distance is zero).  Components below the
threshold contribute to none of the four aggregates. -/
theorem findclusters_spec (g : Grid) (ms : ℕ) (hg : g ≠ []) :
    ∃ ds : List (ℤ × ℤ),
      ds.Pairwise rmLT ∧
      (∀ c, c ∈ ds ↔ isDisc g.length (g.getD 0 []).length g c) ∧
      findclusters g ms = packResult (specAcc ms (((g.getD 0 []).length + 1) / 2)
        ((g.length + 1) / 2)
        (fun c => (component g.length (g.getD 0 []).length g c).ncard) ds) := by
  have hlen : g.length ≠ 0 := by simpa using hg
  set R := g.length with hR
  set C := (g.getD 0 []).length with hC
  set M := (C + 1) / 2 with hM
  set N := (R + 1) / 2 with hN
  set F := onesCount g + 1 with hF
  set sz : (ℤ × ℤ) → ℕ := fun c => (component R C g c).ncard with hsz
  have hmain : ∀ t, t ≤ R * C →
      ∃ ds : List (ℤ × ℤ),
        ds.Pairwise rmLT ∧
        (∀ c, c ∈ ds ↔ (isDisc R C g c ∧ rmPos C c < t)) ∧
        ClearsTo g (clearedSet R C g t)
          (((List.range t).map fun u => (u / C, u % C)).foldl
            (scanStep R C ms M N F) (g, ⟨0, [], 0, JNum.fin 0⟩)).1 ∧
        (∀ x, one R C g x → rmPos C x < t → x ∈ clearedSet R C g t) ∧
        (((List.range t).map fun u => (u / C, u % C)).foldl
            (scanStep R C ms M N F) (g, ⟨0, [], 0, JNum.fin 0⟩)).2 = specAcc ms M N sz ds := by
    intro t
    induction t with
    | zero =>
        intro _
        refine ⟨[], List.Pairwise.nil, ?_, ?_, ?_, ?_⟩
        · intro c
          simp only [List.not_mem_nil, false_iff, not_and]
          intro _
          omega
        · have hcl0 : clearedSet R C g 0 = ∅ := by
            ext x
            simp only [clearedSet, Set.mem_setOf_eq, Set.mem_empty_iff_false, iff_false]
            rintro ⟨c, _, hlt, _⟩
            omega
          rw [hcl0]
          simpa using clearsTo_refl g
        · intro x _ hlt
          omega
        · simp [specAcc]
    | succ t iht =>
        intro ht1
        have ht : t < R * C := by omega
        obtain ⟨ds, hpair, hiff, hclear, hpass, hacc⟩ := iht (by omega)
        have hC0 : 0 < C := by
          rcases Nat.eq_zero_or_pos C with h | h
          · rw [h, Nat.mul_zero] at ht; omega
          · exact h
        have hdI : t / C < R := by
          rw [Nat.div_lt_iff_lt_mul hC0]
          exact ht
        have hdJ : t % C < C := Nat.mod_lt _ hC0
        have hposdz : rmPos C (((t / C : ℕ) : ℤ), ((t % C : ℕ) : ℤ)) = t := by
          show (((t / C : ℕ) : ℤ)).toNat * C + (((t % C : ℕ) : ℤ)).toNat = t
          simp only [Int.toNat_natCast]
          rw [Nat.mul_comm]
          exact Nat.div_add_mod t C
        have hfold : ((List.range (t + 1)).map fun u => (u / C, u % C)).foldl
              (scanStep R C ms M N F) (g, ⟨0, [], 0, JNum.fin 0⟩) =
            scanStep R C ms M N F
              (((List.range t).map fun u => (u / C, u % C)).foldl
                (scanStep R C ms M N F) (g, ⟨0, [], 0, JNum.fin 0⟩))
              (t / C, t % C) := by
          rw [List.range_succ, List.map_append, List.foldl_append]
          simp only [List.map_cons, List.map_nil, List.foldl_cons, List.foldl_nil]
        rw [hfold]
        set st := ((List.range t).map fun u => (u / C, u % C)).foldl
          (scanStep R C ms M N F) (g, ⟨0, [], 0, JNum.fin 0⟩) with hst
        by_cases hv : cellZ st.1 ((t / C : ℕ) : ℤ) ((t % C : ℕ) : ℤ) = 1
        · -- a new component is discovered at scan position t
          have hnc : (((t / C : ℕ) : ℤ), ((t % C : ℕ) : ℤ)) ∉ clearedSet R C g t := by
            intro hmem
            have h0 : cellZ st.1 ((t / C : ℕ) : ℤ) ((t % C : ℕ) : ℤ) = 0 :=
              hclear.2.1 _ hmem
            omega
          have hgz : cellZ g ((t / C : ℕ) : ℤ) ((t % C : ℕ) : ℤ) = 1 := by
            have h0 : cellZ st.1 ((t / C : ℕ) : ℤ) ((t % C : ℕ) : ℤ) =
                cellZ g ((t / C : ℕ) : ℤ) ((t % C : ℕ) : ℤ) := hclear.2.2 _ hnc
            omega
          have honedz : one R C g (((t / C : ℕ) : ℤ), ((t % C : ℕ) : ℤ)) :=
            ⟨Int.natCast_nonneg _,
             by show ((t / C : ℕ) : ℤ) < (R : ℤ); exact_mod_cast hdI,
             Int.natCast_nonneg _,
             by show ((t % C : ℕ) : ℤ) < (C : ℤ); exact_mod_cast hdJ,
             hgz⟩
          have hdisc : isDisc R C g (((t / C : ℕ) : ℤ), ((t % C : ℕ) : ℤ)) := by
            refine ⟨honedz, ?_⟩
            intro x hx
            by_cases hle : rmLE (((t / C : ℕ) : ℤ), ((t % C : ℕ) : ℤ)) x
            · exact hle
            · exfalso
              have hltx : rmLT x (((t / C : ℕ) : ℤ), ((t % C : ℕ) : ℤ)) :=
                (rmLE_or_rmLT _ x).resolve_left hle
              have hxone := mem_component_one hx
              have hxpos : rmPos C x < t := by
                have hlt := rmPos_lt_of_rmLT ⟨hxone.1, hxone.2.2.1, hxone.2.2.2.1⟩
                  ⟨Int.natCast_nonneg _, Int.natCast_nonneg _⟩ hltx
                rw [hposdz] at hlt
                exact hlt
              obtain ⟨c', hd', hp', hm'⟩ := hpass x hxone hxpos
              have hdzx : (((t / C : ℕ) : ℤ), ((t % C : ℕ) : ℤ)) ∈
                  component R C g x := by
                rw [component_eq_of_mem hx]
                exact component_self honedz
              refine hnc ⟨c', hd', hp', ?_⟩
              rw [← component_eq_of_mem hm']
              exact hdzx
          have honest : onesCount st.1 < F := by
            have hle := onesCount_le_of_clearsTo hclear
            omega
          obtain ⟨hdfsC, hdfsS⟩ :=
            dfs_char R C F st.1 honest ((t / C : ℕ) : ℤ) ((t % C : ℕ) : ℤ)
          have hdisj : ∀ y ∈ component R C g (((t / C : ℕ) : ℤ), ((t % C : ℕ) : ℤ)),
              y ∉ clearedSet R C g t := by
            intro y hy hycl
            obtain ⟨c', hd', hp', hm'⟩ := hycl
            refine hnc ⟨c', hd', hp', ?_⟩
            rw [← component_eq_of_mem hm', component_eq_of_mem hy]
            exact component_self honedz
          have hrestore : component R C st.1 (((t / C : ℕ) : ℤ), ((t % C : ℕ) : ℤ)) =
              component R C g (((t / C : ℕ) : ℤ), ((t % C : ℕ) : ℤ)) :=
            component_restore hclear honedz hdisj
          rw [hrestore] at hdfsC hdfsS
          have hsz_dz : (dfs R C F st.1 ((t / C : ℕ) : ℤ) ((t % C : ℕ) : ℤ)).2 =
              sz (((t / C : ℕ) : ℤ), ((t % C : ℕ) : ℤ)) := hdfsS
          have hclsucc : clearedSet R C g (t + 1) =
              clearedSet R C g t ∪
                component R C g (((t / C : ℕ) : ℤ), ((t % C : ℕ) : ℤ)) := by
            ext x
            simp only [clearedSet, Set.mem_setOf_eq, Set.mem_union]
            constructor
            · rintro ⟨c', hd', hp', hm'⟩
              by_cases h : rmPos C c' < t
              · exact Or.inl ⟨c', hd', h, hm'⟩
              · have hpt : rmPos C c' = t := by omega
                have hcdz := rmPos_eq_cell hd'.1.1 hd'.1.2.2.1 hd'.1.2.2.2.1 hpt
                rw [hcdz] at hm'
                exact Or.inr hm'
            · rintro (⟨c', hd', hp', hm'⟩ | hx)
              · exact ⟨c', hd', by omega, hm'⟩
              · exact ⟨_, hdisc, by rw [hposdz]; omega, hx⟩
          have hpass' : ∀ x, one R C g x → rmPos C x < t + 1 →
              x ∈ clearedSet R C g (t + 1) := by
            intro x hx hxp
            rw [hclsucc]
            by_cases h : rmPos C x < t
            · exact Or.inl (hpass x hx h)
            · have hpt : rmPos C x = t := by omega
              have hcdz := rmPos_eq_cell hx.1 hx.2.2.1 hx.2.2.2.1 hpt
              rw [hcdz]
              exact Or.inr (component_self honedz)
          have hpair' : (ds ++ [(((t / C : ℕ) : ℤ), ((t % C : ℕ) : ℤ))]).Pairwise rmLT := by
            rw [List.pairwise_append]
            refine ⟨hpair, List.pairwise_singleton _ _, ?_⟩
            intro a ha b hb
            rw [List.mem_singleton] at hb
            subst hb
            obtain ⟨hda, hpa⟩ := (hiff a).mp ha
            apply rmLT_of_rmPos_lt ⟨hda.1.1, hda.1.2.2.1, hda.1.2.2.2.1⟩
              ⟨Int.natCast_nonneg _, Int.natCast_nonneg _,
               by show ((t % C : ℕ) : ℤ) < (C : ℤ); exact_mod_cast hdJ⟩
            rw [hposdz]
            omega
          have hiff' : ∀ c, c ∈ ds ++ [(((t / C : ℕ) : ℤ), ((t % C : ℕ) : ℤ))] ↔
              (isDisc R C g c ∧ rmPos C c < t + 1) := by
            intro c
            rw [List.mem_append, List.mem_singleton, hiff c]
            constructor
            · rintro (⟨h1, h2⟩ | rfl)
              · exact ⟨h1, by omega⟩
              · exact ⟨hdisc, by rw [hposdz]; omega⟩
            · rintro ⟨h1, h2⟩
              by_cases h : rmPos C c < t
              · exact Or.inl ⟨h1, h⟩
              · have hpt : rmPos C c = t := by omega
                exact Or.inr (rmPos_eq_cell h1.1.1 h1.1.2.2.1 h1.1.2.2.2.1 hpt)
          by_cases hms : ms ≤ (dfs R C F st.1 ((t / C : ℕ) : ℤ) ((t % C : ℕ) : ℤ)).2
          · rw [scanStep_eq_pos R C ms M N F st (t / C) (t % C) hv hms]
            refine ⟨ds ++ [(((t / C : ℕ) : ℤ), ((t % C : ℕ) : ℤ))], hpair', hiff', ?_,
              hpass', ?_⟩
            · show ClearsTo g (clearedSet R C g (t + 1))
                (dfs R C F st.1 ((t / C : ℕ) : ℤ) ((t % C : ℕ) : ℤ)).1
              rw [hclsucc]
              exact clearsTo_trans hclear hdfsC
            · rw [specAcc_append_pos ms M N sz ds _ (by rw [← hsz_dz]; exact hms)]
              rw [hacc, hsz_dz]
          · rw [scanStep_eq_small R C ms M N F st (t / C) (t % C) hv hms]
            refine ⟨ds ++ [(((t / C : ℕ) : ℤ), ((t % C : ℕ) : ℤ))], hpair', hiff', ?_,
              hpass', ?_⟩
            · show ClearsTo g (clearedSet R C g (t + 1))
                (dfs R C F st.1 ((t / C : ℕ) : ℤ) ((t % C : ℕ) : ℤ)).1
              rw [hclsucc]
              exact clearsTo_trans hclear hdfsC
            · show st.2 = specAcc ms M N sz
                (ds ++ [(((t / C : ℕ) : ℤ), ((t % C : ℕ) : ℤ))])
              rw [specAcc_append_neg ms M N sz ds _ (by rw [← hsz_dz]; exact hms)]
              exact hacc
        · rw [scanStep_eq_zero R C ms M N F st (t / C) (t % C) hv]
          have hnonew : ∀ c, isDisc R C g c → rmPos C c ≠ t := by
            intro c hd hpt
            have hcdz := rmPos_eq_cell hd.1.1 hd.1.2.2.1 hd.1.2.2.2.1 hpt
            rw [hcdz] at hd
            by_cases hdzCl : (((t / C : ℕ) : ℤ), ((t % C : ℕ) : ℤ)) ∈ clearedSet R C g t
            · obtain ⟨c'', hd'', hp'', hm''⟩ := hdzCl
              have hc''dz : c'' ∈ component R C g (((t / C : ℕ) : ℤ), ((t % C : ℕ) : ℤ)) := by
                rw [component_eq_of_mem hm'']
                exact component_self hd''.1
              have hlepos := rmPos_le_of_rmLE
                ⟨hd.1.1, hd.1.2.2.1, hd.1.2.2.2.1⟩
                ⟨hd''.1.1, hd''.1.2.2.1⟩ (hd.2 c'' hc''dz)
              rw [hposdz] at hlepos
              omega
            · have hpres : cellZ st.1 ((t / C : ℕ) : ℤ) ((t % C : ℕ) : ℤ) =
                  cellZ g ((t / C : ℕ) : ℤ) ((t % C : ℕ) : ℤ) := hclear.2.2 _ hdzCl
              have h1 : cellZ g ((t / C : ℕ) : ℤ) ((t % C : ℕ) : ℤ) = 1 := hd.1.2.2.2.2
              omega
          have hcleq : clearedSet R C g (t + 1) = clearedSet R C g t := by
            ext x
            simp only [clearedSet, Set.mem_setOf_eq]
            constructor
            · rintro ⟨c', hd', hp', hm'⟩
              refine ⟨c', hd', ?_, hm'⟩
              have := hnonew c' hd'
              omega
            · rintro ⟨c', hd', hp', hm'⟩
              exact ⟨c', hd', by omega, hm'⟩
          refine ⟨ds, hpair, ?_, ?_, ?_, hacc⟩
          · intro c
            rw [hiff c]
            constructor
            · rintro ⟨h1, h2⟩
              exact ⟨h1, by omega⟩
            · rintro ⟨h1, h2⟩
              refine ⟨h1, ?_⟩
              have := hnonew c h1
              omega
          · rw [hcleq]
            exact hclear
          · intro x hx hxp
            rw [hcleq]
            by_cases h : rmPos C x < t
            · exact hpass x hx h
            · have hpt : rmPos C x = t := by omega
              have hcdz := rmPos_eq_cell hx.1 hx.2.2.1 hx.2.2.2.1 hpt
              by_cases hdzCl : (((t / C : ℕ) : ℤ), ((t % C : ℕ) : ℤ)) ∈ clearedSet R C g t
              · rw [hcdz]
                exact hdzCl
              · exfalso
                have hpres : cellZ st.1 ((t / C : ℕ) : ℤ) ((t % C : ℕ) : ℤ) =
                    cellZ g ((t / C : ℕ) : ℤ) ((t % C : ℕ) : ℤ) := hclear.2.2 _ hdzCl
                have h1 : cellZ g ((t / C : ℕ) : ℤ) ((t % C : ℕ) : ℤ) = 1 := by
                  rw [hcdz] at hx
                  exact hx.2.2.2.2
                omega
  obtain ⟨ds, hpair, hiff, _, _, hacc⟩ := hmain (R * C) le_rfl
  refine ⟨ds, hpair, ?_, ?_⟩
  · intro c
    rw [hiff c]
    constructor
    · rintro ⟨h1, _⟩
      exact h1
    · intro h1
      refine ⟨h1, ?_⟩
      obtain ⟨hc1, hc2, hc3, hc4, _⟩ := h1.1
      show c.1.toNat * C + c.2.toNat < R * C
      calc c.1.toNat * C + c.2.toNat < c.1.toNat * C + C := by omega
      _ = (c.1.toNat + 1) * C := by ring
      _ ≤ R * C := Nat.mul_le_mul_right _ (by omega)
  · simp only [findclusters]
    rw [if_neg (by omega : ¬ (g.length = 0))]
    rw [← hR, ← hC, ← hM, ← hN, ← hF, scanCells_eq R C, hacc]
    rfl

/-- A `6 × 6` activation grid holding a single 4-connected component of
exactly 7 cells (a plus shape with two extra arms), whose row-major first
cell `(2, 3)` lies at rounded Euclidean distance 1 from the grid centre
`(m, n) = (3, 3)`. -/
def grid6 : Grid :=
  [[0, 0, 0, 0, 0, 0],
   [0, 0, 0, 0, 0, 0],
   [0, 0, 0, 1, 0, 0],
   [0, 0, 1, 1, 1, 1],
   [0, 0, 0, 1, 0, 0],
   [0, 0, 0, 1, 0, 0]]

section ConcreteScore

attribute [local semireducible] Rat.add Rat.mul Rat.inv Rat.sub Rat.ofScientific

set_option maxRecDepth 8000 in
/-- C3: first conjunct — for every non-empty grid and threshold, the
score returned by `findclusters` is the sum, over exactly those
4-connected components of `1`-cells whose cell count reaches the
threshold, of `round((size * 0.4) / (dist * 0.6)) * 100` with `dist` the
rounded Euclidean distance from the component's discovery coordinate (its
row-major least cell, where the scan first meets it) to the grid centre;
`count`, `sizes` and `totalSize` aggregate exactly the same components,
and sub-threshold components contribute to none of the four fields.
Second conjunct — the claim's concrete scenario: a `6 × 6` grid with a
single 7-cell component discovered at distance 1 yields score
`round((7*0.4)/(1*0.6))*100 = 500` and count 1. -/
theorem findclusters_component_score :
    (∀ (g : Grid) (ms : ℕ), g ≠ [] →
      ∃ ds : List (ℤ × ℤ),
        ds.Pairwise rmLT ∧
        (∀ c, c ∈ ds ↔ isDisc g.length (g.getD 0 []).length g c) ∧
        findclusters g ms = packResult (specAcc ms (((g.getD 0 []).length + 1) / 2)
          ((g.length + 1) / 2)
          (fun c => (component g.length (g.getD 0 []).length g c).ncard) ds)) ∧
    findclusters grid6 7 =
      { count := 1, sizes := [7], totalSize := 7, score := some (JNum.fin 500) } :=
  ⟨findclusters_spec, by decide⟩

/-- Witness for `findclusters_component_score` at the concrete grid
`grid6` and threshold 7. -/
theorem findclusters_component_score_witness :
    ∃ ds : List (ℤ × ℤ),
      ds.Pairwise rmLT ∧
      (∀ c, c ∈ ds ↔ isDisc grid6.length (grid6.getD 0 []).length grid6 c) ∧
      findclusters grid6 7 = packResult (specAcc 7 (((grid6.getD 0 []).length + 1) / 2)
        ((grid6.length + 1) / 2)
        (fun c => (component grid6.length (grid6.getD 0 []).length grid6 c).ncard) ds) :=
  findclusters_component_score.1 grid6 7 (by decide)

end ConcreteScore

end SpectralFP
